import Mathlib

/-!
# certmon: certificate expiry monitor

Shallow embedding of `src/certmon.go` (package `certmonitor`) together with the
parts of the Go packages `time`, `crypto/x509` and `crypto/tls` that the
program calls.

* Machine integers are `Int` with explicit two's-complement wrapping.
* The file system, the operating system's root store, the PEM decoder, the
  network and the wall clock are inputs of the functions that use them.
* `float64` results are given at two levels. `Duration.Seconds/Minutes/Hours`
  and the accessors built on them give the exact rational value of the
  expression Go evaluates (whole part plus remainder over the unit).
  `Duration.SecondsFloat64/MinutesFloat64/HoursFloat64` and the accessors built
  on them give the binary64 value Go returns: every conversion, division and
  addition is rounded to nearest, ties to even (`float64`).
* A Go call either returns, panics (nil dereference) or ends the process
  (`log.Fatalf`); `Run` records which.
-/

namespace Certmon

/-! ## Go runtime outcomes -/

/-- Outcome of running a Go function: it returns a value, it panics at run
time, or it terminates the process through `log.Fatalf`. -/
inductive Run (α : Type) where
  | ret (a : α) : Run α
  | panicked (msg : String) : Run α
  | fatal (msg : String) : Run α
  deriving Repr, DecidableEq

/-! ## Package `time` -/

/-- Conversion of an integer to `int64` (two's-complement wrap-around). -/
def wrap64 (x : Int) : Int := (x + 2 ^ 63) % 2 ^ 64 - 2 ^ 63

/-- Conversion of an integer to `int32` (two's-complement wrap-around). -/
def wrap32 (x : Int) : Int := (x + 2 ^ 31) % 2 ^ 32 - 2 ^ 31

/-- A `time.Duration`: a signed count of nanoseconds held in an `int64`. -/
abbrev Duration := Int

/-- Constant `time.Second`, in nanoseconds. -/
def Second : Duration := 1000000000

/-- Constant `time.Minute`, in nanoseconds. -/
def Minute : Duration := 60 * Second

/-- Constant `time.Hour`, in nanoseconds. -/
def Hour : Duration := 60 * Minute

/-- Constant `minDuration` of package `time`: `-1 << 63`. -/
def minDuration : Duration := -(2 ^ 63)

/-- Constant `maxDuration` of package `time`: `1<<63 - 1`. -/
def maxDuration : Duration := 2 ^ 63 - 1

/-- Constant `wallToInternal` of package `time`: seconds from January 1,
year 1 to January 1, 1885. -/
def wallToInternal : Int := (1884 * 365 + 1884 / 4 - 1884 / 100 + 1884 / 400) * 86400

/-- Constant `unixToInternal` of package `time`: seconds from January 1,
year 1 to January 1, 1970. -/
def unixToInternal : Int := (1969 * 365 + 1969 / 4 - 1969 / 100 + 1969 / 400) * 86400

/-- A `time.Time`. `sec` is what `t.sec()` returns (seconds since January 1,
year 1, 00:00:00 UTC, an `int64`), `nsec` is what `t.nsec()` returns (an
`int32` in `[0, 999999999]`), `mono` is the monotonic clock reading in
nanoseconds when the `hasMonotonic` bit is set, and `loc` is the location
pointer (`none` is UTC). -/
structure Time where
  sec : Int
  nsec : Int
  mono : Option Int
  loc : Option String
  deriving Repr, DecidableEq

namespace Time

/-- The zero `time.Time` value: January 1, year 1, 00:00:00 UTC. -/
def zero : Time := { sec := 0, nsec := 0, mono := none, loc := none }

/-- Representation invariant of a `time.Time`: the seconds fit an `int64`, the
nanoseconds lie in `[0, 999999999]`, and a value carrying a monotonic reading
keeps its seconds in the 33-bit field counted from 1885. -/
def valid (t : Time) : Prop :=
  -(2 ^ 63) ≤ t.sec ∧ t.sec < 2 ^ 63 ∧ 0 ≤ t.nsec ∧ t.nsec < 1000000000 ∧
    (t.mono.isSome = true →
      wallToInternal ≤ t.sec ∧ t.sec < wallToInternal + 2 ^ 33 ∧
      -(2 ^ 63) ≤ t.mono.getD 0 ∧ t.mono.getD 0 < 2 ^ 63)

instance (t : Time) : Decidable t.valid := by
  unfold valid
  exact inferInstance

/-- Method `stripMono`: drop the monotonic clock reading. -/
def stripMono (t : Time) : Time := { t with mono := none }

/-- Method `time.Time.UTC`: `setLoc(&utcLoc)`, which strips the monotonic
reading and sets the location to UTC. -/
def UTC (t : Time) : Time := { t.stripMono with loc := none }

/-- Method `addSec`: add `d` seconds to the wall time. With a monotonic reading
the seconds live in a 33-bit field; leaving that field strips the reading.
Otherwise the `int64` sum saturates instead of overflowing. -/
def addSec (t : Time) (d : Int) : Time :=
  let ext (t : Time) : Time :=
    let sum := wrap64 (t.sec + d)
    if (sum > t.sec ↔ d > 0) then { t with sec := sum }
    else if d > 0 then { t with sec := 2 ^ 63 - 1 }
    else { t with sec := -(2 ^ 63 - 1) }
  match t.mono with
  | some _ =>
    let dsec := wrap64 (t.sec - wallToInternal + d)
    if 0 ≤ dsec ∧ dsec ≤ 2 ^ 33 - 1 then { t with sec := wallToInternal + dsec }
    else ext t.stripMono
  | none => ext t

/-- Method `time.Time.Add`. -/
def Add (t : Time) (d : Duration) : Time :=
  let dsec := wrap64 (Int.tdiv d 1000000000)
  let nsec := wrap32 (t.nsec + wrap32 (Int.tmod d 1000000000))
  let adj : Int × Int :=
    if nsec ≥ 1000000000 then (wrap64 (dsec + 1), wrap32 (nsec - 1000000000))
    else if nsec < 0 then (wrap64 (dsec - 1), wrap32 (nsec + 1000000000))
    else (dsec, nsec)
  let t := ({ t with nsec := adj.2 } : Time).addSec adj.1
  match t.mono with
  | some m =>
    let te := wrap64 (m + d)
    if (d < 0 ∧ te > m) ∨ (d > 0 ∧ te < m) then t.stripMono
    else { t with mono := some te }
  | none => t

/-- Method `time.Time.Equal`. -/
def Equal (t u : Time) : Bool :=
  match t.mono, u.mono with
  | some a, some b => decide (a = b)
  | _, _ => decide (t.sec = u.sec) && decide (t.nsec = u.nsec)

/-- Method `time.Time.Before`. -/
def Before (t u : Time) : Bool :=
  match t.mono, u.mono with
  | some a, some b => decide (a < b)
  | _, _ => decide (t.sec < u.sec) || (decide (t.sec = u.sec) && decide (t.nsec < u.nsec))

/-- Function `subMono` of package `time`. -/
def subMono (t u : Int) : Duration :=
  let d := wrap64 (t - u)
  if d < 0 ∧ t > u then maxDuration
  else if d > 0 ∧ t < u then minDuration
  else d

/-- Method `time.Time.Sub`: the duration `t - u`, saturated to the `int64`
range. -/
def Sub (t u : Time) : Duration :=
  match t.mono, u.mono with
  | some a, some b => subMono a b
  | _, _ =>
    let d := wrap64 (wrap64 (wrap64 (t.sec - u.sec) * Second) + wrap64 (wrap32 (t.nsec - u.nsec)))
    if (u.Add d).Equal t then d
    else if t.Before u then minDuration
    else maxDuration

/-- Nanoseconds from `u` to `t` on the wall clock, as an unbounded integer. -/
def nanosSince (t u : Time) : Int := (t.sec - u.sec) * 1000000000 + (t.nsec - u.nsec)

/-- The instant `t` lies strictly before the instant `u` on the wall clock. -/
def earlier (t u : Time) : Prop := t.sec < u.sec ∨ (t.sec = u.sec ∧ t.nsec < u.nsec)

instance (t u : Time) : Decidable (t.earlier u) := by
  unfold earlier
  exact inferInstance

end Time

/-- Method `time.Duration.Seconds`: `float64(d / Second) + float64(d % Second) / 1e9`,
as the exact rational value of that expression; `Duration.SecondsFloat64` is
the value after binary64 rounding. -/
def Duration.Seconds (d : Duration) : ℚ :=
  let sec := Int.tdiv d Second
  let nsec := Int.tmod d Second
  (sec : ℚ) + (nsec : ℚ) / 1000000000

/-- Method `time.Duration.Minutes`: `float64(d / Minute) + float64(d % Minute) / (60 * 1e9)`,
as the exact rational value of that expression; `Duration.MinutesFloat64` is
the value after binary64 rounding. -/
def Duration.Minutes (d : Duration) : ℚ :=
  let min := Int.tdiv d Minute
  let nsec := Int.tmod d Minute
  (min : ℚ) + (nsec : ℚ) / (60 * 1000000000)

/-- Method `time.Duration.Hours`: `float64(d / Hour) + float64(d % Hour) / (60 * 60 * 1e9)`,
as the exact rational value of that expression; `Duration.HoursFloat64` is
the value after binary64 rounding. -/
def Duration.Hours (d : Duration) : ℚ :=
  let hour := Int.tdiv d Hour
  let nsec := Int.tmod d Hour
  (hour : ℚ) + (nsec : ℚ) / (60 * 60 * 1000000000)

/-! ## Binary64 arithmetic -/

/-- Rounding of a rational to the nearest integer, ties to the even one. -/
def roundHalfEven (x : ℚ) : Int :=
  let f := ⌊x⌋
  let r := x - f
  if r < 1 / 2 then f else if 1 / 2 < r then f + 1 else if f % 2 = 0 then f else f + 1

/-- Binary exponent of the unit in the last place of a binary64 number of the
magnitude of `x`: 53 significant bits, and no finer than `2 ^ (-1074)`. -/
def ulpExp (x : ℚ) : Int := max (Int.log 2 |x| - 52) (-1074)

/-- The binary64 (`float64`) value nearest to `x`, ties to even, as a rational.
Overflow to infinity is not represented: the program rounds values below
`2 ^ 64` only. -/
def float64 (x : ℚ) : ℚ := (roundHalfEven (x / 2 ^ ulpExp x) : ℚ) * 2 ^ ulpExp x

/-- Method `time.Duration.Seconds` as Go evaluates it in binary64:
`float64(sec) + float64(nsec)/1e9` with every conversion, the division and the
addition rounded to nearest, ties to even. The constant `1e9` is exact. -/
def Duration.SecondsFloat64 (d : Duration) : ℚ :=
  let sec := Int.tdiv d Second
  let nsec := Int.tmod d Second
  float64 (float64 (sec : ℚ) + float64 (float64 (nsec : ℚ) / 1000000000))

/-- Method `time.Duration.Minutes` as Go evaluates it in binary64:
`float64(min) + float64(nsec)/(60*1e9)`. The constant `60*1e9` is exact. -/
def Duration.MinutesFloat64 (d : Duration) : ℚ :=
  let min := Int.tdiv d Minute
  let nsec := Int.tmod d Minute
  float64 (float64 (min : ℚ) + float64 (float64 (nsec : ℚ) / 60000000000))

/-- Method `time.Duration.Hours` as Go evaluates it in binary64:
`float64(hour) + float64(nsec)/(60*60*1e9)`. The constant `60*60*1e9` is exact. -/
def Duration.HoursFloat64 (d : Duration) : ℚ :=
  let hour := Int.tdiv d Hour
  let nsec := Int.tmod d Hour
  float64 (float64 (hour : ℚ) + float64 (float64 (nsec : ℚ) / 3600000000000))

/-- The saturation of an integer to the `int64` range. -/
def clamp64 (x : Int) : Int :=
  if x < -(2 ^ 63) then -(2 ^ 63) else if x > 2 ^ 63 - 1 then 2 ^ 63 - 1 else x

/-! ## Packages `crypto/x509` and `crypto/tls` -/

/-- An `x509.Certificate`, reduced to the fields the program and its tests read. -/
structure Certificate where
  Raw : List Nat
  Subject : String
  NotBefore : Time
  NotAfter : Time
  deriving Repr, DecidableEq

/-- The value `x509.Certificate{}`: every field is the zero value of its type. -/
def Certificate.zero : Certificate :=
  { Raw := [], Subject := "", NotBefore := Time.zero, NotAfter := Time.zero }

/-- An `x509.CertPool`: the DER encodings of the certificates it holds. -/
structure CertPool where
  certs : List (List Nat)
  deriving Repr, DecidableEq

/-- Function `x509.NewCertPool`: a new, empty pool. -/
def NewCertPool : CertPool := { certs := [] }

/-- A `tls.Config`, reduced to the two fields the program sets. -/
structure Config where
  InsecureSkipVerify : Bool
  RootCAs : Option CertPool
  deriving Repr, DecidableEq

/-- A `tls.ConnectionState`, reduced to the peer certificate list. The entries
are the certificates parsed during the handshake, so they are present values. -/
structure ConnectionState where
  PeerCertificates : List Certificate
  deriving Repr, DecidableEq

/-- What the program reads from its host at construction time: the result of
`x509.SystemCertPool()` (`none` when it yields a nil pool), `ioutil.ReadFile`
(the error carries `err.Error()`), the effect of
`(*x509.CertPool).AppendCertsFromPEM` on a pool, and whether that method
decodes at least one certificate from the given bytes (`ParsesCertificate`,
which decides what a call through a nil pool does). -/
structure Env where
  SystemCertPool : Option CertPool
  ReadFile : String → Except String (List Nat)
  AppendCertsFromPEM : CertPool → List Nat → CertPool
  ParsesCertificate : List Nat → Bool

/-- The network as `tls.Dial` sees it: network name, address and client
configuration give either a dial error (`err.Error()`) or the state of the
established connection. -/
structure Net where
  Dial : String → String → Option Config → Except String ConnectionState

/-! ## `src/certmon.go` -/

/-- Type `Host`. `Certificate` and `tlsConfig` are pointers, `none` is nil. -/
structure Host where
  Certificate : Option Certificate
  DomainName : String
  tlsConfig : Option Config
  deriving Repr, DecidableEq

/-- Type `CertMonitor`. `AdditionalRootCAPaths` and `RootCAs` are pointers,
`none` is nil. -/
structure CertMonitor where
  Hosts : List Host
  AdditionalRootCAPaths : Option (List String)
  RootCAs : Option CertPool
  deriving Repr, DecidableEq

/-- The value `CertMonitor{}`. -/
def CertMonitor.zero : CertMonitor :=
  { Hosts := [], AdditionalRootCAPaths := none, RootCAs := none }

/-- Method `getCertPool`: the system pool, or a new empty pool when
`x509.SystemCertPool()` gives nil. -/
def CertMonitor.getCertPool (env : Env) (cm : CertMonitor) : CertMonitor :=
  let rootCAs := env.SystemCertPool
  let rootCAs := match rootCAs with
    | none => some NewCertPool
    | some p => some p
  { cm with RootCAs := rootCAs }

/-- The message built by `fmt.Errorf("Error reading additional cert file %s:   error: %s", ...)`. -/
def readErrorMessage (file err : String) : String :=
  "Error reading additional cert file " ++ file ++ ":   error: " ++ err

/-- The `for _, file := range *cm.AdditionalRootCAPaths` loop of
`addAdditionalRootCertsFromFile`. The returned pair is the monitor after the
loop and the returned error. `AppendCertsFromPEM` called through a nil
`RootCAs` dereferences the pool, and panics, only when it adds a certificate
decoded from the bytes; otherwise it returns and the loop goes on. -/
def CertMonitor.appendFiles (env : Env) (cm : CertMonitor) :
    List String → Run (CertMonitor × Option String)
  | [] => .ret (cm, none)
  | file :: rest =>
    match env.ReadFile file with
    | .error err => .ret (cm, some (readErrorMessage file err))
    | .ok certs =>
      match cm.RootCAs with
      | none =>
        if env.ParsesCertificate certs then
          .panicked "invalid memory address or nil pointer dereference"
        else CertMonitor.appendFiles env cm rest
      | some pool =>
        CertMonitor.appendFiles env { cm with RootCAs := some (env.AppendCertsFromPEM pool certs) } rest

/-- Method `addAdditionalRootCertsFromFile`. -/
def CertMonitor.addAdditionalRootCertsFromFile (env : Env) (cm : CertMonitor) :
    Run (CertMonitor × Option String) :=
  match cm.AdditionalRootCAPaths with
  | none => .ret (cm, none)
  | some paths => cm.appendFiles env paths

/-- Function `getTLSConfig`. -/
def getTLSConfig (ca : Option CertPool) : Option Config :=
  some { InsecureSkipVerify := true, RootCAs := ca }

/-- The `for _, h := range hostDomains` loop of `NewCertMonitor`: one `append`
per domain name. -/
def appendHosts (tlsConfig : Option Config) (hostDomains : List String) : List Host :=
  hostDomains.foldl
    (fun hosts h =>
      hosts ++ [{ DomainName := h, Certificate := some Certificate.zero, tlsConfig := tlsConfig }])
    []

/-- Function `NewCertMonitor`. The result is the returned pair
`(CertMonitor, error)`; `none` is the nil error. -/
def NewCertMonitor (env : Env) (hostDomains : List String)
    (additionalRootCAPaths : Option (List String)) : Run (CertMonitor × Option String) :=
  let cm : CertMonitor :=
    { Hosts := [], AdditionalRootCAPaths := additionalRootCAPaths, RootCAs := none }
  let cm := cm.getCertPool env
  let finish (cm : CertMonitor) : Run (CertMonitor × Option String) :=
    let tlsConfig := getTLSConfig cm.RootCAs
    let hosts := appendHosts tlsConfig hostDomains
    .ret ({ cm with Hosts := hosts }, none)
  match additionalRootCAPaths with
  | some _ =>
    match cm.addAdditionalRootCertsFromFile env with
    | .ret (cm, none) => finish cm
    | .ret (_, some err) => .ret (CertMonitor.zero, some err)
    | .panicked msg => .panicked msg
    | .fatal msg => .fatal msg
  | none => finish cm

/-- Method `SecondsUntilExpired`; `now` is the value `time.Now()` returns.
Reading `NotAfter` through a nil `Certificate` is a panic. -/
def Host.SecondsUntilExpired (h : Host) (now : Time) : Run ℚ :=
  match h.Certificate with
  | none => .panicked "invalid memory address or nil pointer dereference"
  | some cert =>
    let then_ := cert.NotAfter.UTC
    let now := now.UTC
    let diff := then_.Sub now
    .ret diff.Seconds

/-- Method `MinutesUntilExpired`; `now` is the value `time.Now()` returns. -/
def Host.MinutesUntilExpired (h : Host) (now : Time) : Run ℚ :=
  match h.Certificate with
  | none => .panicked "invalid memory address or nil pointer dereference"
  | some cert =>
    let then_ := cert.NotAfter.UTC
    let now := now.UTC
    let diff := then_.Sub now
    .ret diff.Minutes

/-- Method `HoursUntilExpired`; `now` is the value `time.Now()` returns. -/
def Host.HoursUntilExpired (h : Host) (now : Time) : Run ℚ :=
  match h.Certificate with
  | none => .panicked "invalid memory address or nil pointer dereference"
  | some cert =>
    let then_ := cert.NotAfter.UTC
    let now := now.UTC
    let diff := then_.Sub now
    .ret diff.Hours

/-- Method `SecondsUntilExpired` with the `float64` value Go computes;
`now` is the value `time.Now()` returns. -/
def Host.SecondsUntilExpiredFloat64 (h : Host) (now : Time) : Run ℚ :=
  match h.Certificate with
  | none => .panicked "invalid memory address or nil pointer dereference"
  | some cert =>
    let then_ := cert.NotAfter.UTC
    let now := now.UTC
    let diff := then_.Sub now
    .ret diff.SecondsFloat64

/-- Method `MinutesUntilExpired` with the `float64` value Go computes. -/
def Host.MinutesUntilExpiredFloat64 (h : Host) (now : Time) : Run ℚ :=
  match h.Certificate with
  | none => .panicked "invalid memory address or nil pointer dereference"
  | some cert =>
    let then_ := cert.NotAfter.UTC
    let now := now.UTC
    let diff := then_.Sub now
    .ret diff.MinutesFloat64

/-- Method `HoursUntilExpired` with the `float64` value Go computes. -/
def Host.HoursUntilExpiredFloat64 (h : Host) (now : Time) : Run ℚ :=
  match h.Certificate with
  | none => .panicked "invalid memory address or nil pointer dereference"
  | some cert =>
    let then_ := cert.NotAfter.UTC
    let now := now.UTC
    let diff := then_.Sub now
    .ret diff.HoursFloat64

/-- Method `GetCertificate`. `net` answers `tls.Dial` and `now` is the value
`time.Now()` takes in the `h.SecondsUntilExpired()` call of the success path.
The result is the Host after the call and the returned error. The match on the
peer list is the test `len(state.PeerCertificates) > 0` with the read of
element 0; a failed dial ends the process in `log.Fatalf`. -/
def Host.GetCertificate (net : Net) (now : Time) (h : Host) : Run (Host × Option String) :=
  match net.Dial "tcp" (h.DomainName ++ ":" ++ "443") h.tlsConfig with
  | .error err => .fatal ("client: dial: " ++ err)
  | .ok state =>
    match state.PeerCertificates with
    | cert :: _ =>
      let h := { h with Certificate := some cert }
      match h.SecondsUntilExpired now with
      | .ret _ => .ret (h, none)
      | .panicked msg => .panicked msg
      | .fatal msg => .fatal msg
    | [] => .ret (h, some "No certs returned")

/-- A sequence of `GetCertificate` calls on one Host, each with its own network
answer and clock reading; the errors the calls return are not kept. -/
def Host.fetches (h : Host) : List (Net × Time) → Run Host
  | [] => .ret h
  | (net, now) :: rest =>
    match h.GetCertificate net now with
    | .ret (h, _) => h.fetches rest
    | .panicked msg => .panicked msg
    | .fatal msg => .fatal msg

/-! ## Auxiliary definitions and sample inputs -/

/-- Every path of the list can be read. -/
def allReadable (env : Env) (paths : List String) : Prop :=
  ∀ p ∈ paths, ∃ b, env.ReadFile p = .ok b

/-- A host environment without a system root store, in which every path except
`missing.pem` is readable and holds bytes that are not PEM. -/
def demoEnv : Env :=
  { SystemCertPool := none
    ReadFile := fun p =>
      if p = "missing.pem" then .error "open missing.pem: no such file or directory"
      else .ok [45, 45, 45]
    AppendCertsFromPEM := fun pool _ => pool
    ParsesCertificate := fun _ => false }

/-- A certificate that expires one hundred seconds after the Unix epoch plus
1.7e9 seconds. -/
def demoCert : Certificate :=
  { Raw := [48, 130], Subject := "CN=example.com",
    NotBefore := { sec := unixToInternal + 1600000000, nsec := 0, mono := none, loc := none },
    NotAfter := { sec := unixToInternal + 1700000100, nsec := 0, mono := none, loc := none } }

/-- A network in which `example.com:443` presents `demoCert`, `empty.example:443`
presents no certificate and every other address fails to dial. -/
def demoNet : Net :=
  { Dial := fun _ addr _ =>
      if addr = "example.com:443" then .ok { PeerCertificates := [demoCert, Certificate.zero] }
      else if addr = "empty.example:443" then .ok { PeerCertificates := [] }
      else .error "dial tcp: lookup failed" }

/-- A clock reading as `time.Now()` gives it: Unix second 1.7e9, with a
monotonic reading and the local location. -/
def demoNow : Time :=
  { sec := unixToInternal + 1700000000, nsec := 250, mono := some 123456789, loc := some "Local" }

/-- The clock one nanosecond after `demoNow`. -/
def demoLater : Time :=
  { sec := unixToInternal + 1700000000, nsec := 251, mono := some 123456790, loc := some "Local" }

/-- A clock reading exactly one hundred seconds before `demoCert` expires. -/
def demoWhole : Time :=
  { sec := unixToInternal + 1700000000, nsec := 0, mono := some 1000, loc := some "Local" }

/-- A Host as `NewCertMonitor` builds it: placeholder certificate, never fetched. -/
def unfetchedHost : Host :=
  { Certificate := some Certificate.zero, DomainName := "example.com",
    tlsConfig := getTLSConfig (some NewCertPool) }

/-- A Host holding `demoCert`. -/
def fetchedHost : Host :=
  { Certificate := some demoCert, DomainName := "example.com",
    tlsConfig := getTLSConfig (some NewCertPool) }

/-- The monitor `NewCertMonitor` builds in `demoEnv` for the single domain
`example.com` without extra CA paths. -/
def demoMonitor : CertMonitor :=
  { Hosts := [{ Certificate := some Certificate.zero, DomainName := "example.com",
                tlsConfig := some { InsecureSkipVerify := true, RootCAs := some NewCertPool } }],
    AdditionalRootCAPaths := none,
    RootCAs := some NewCertPool }

/-! ## Arithmetic of the time model -/

theorem tdiv_pos_eq (a c : Int) (hc : 0 < c) :
    Int.tdiv a c = if 0 ≤ a then a / c else -((-a) / c) := by
  split
  · rw [Int.tdiv_eq_ediv] <;> omega
  · have h1 : (-a).tdiv c = (-a) / c := Int.tdiv_eq_ediv (by omega) (by omega)
    have h2 := Int.neg_tdiv (-a) c
    rw [neg_neg] at h2
    rw [h2, h1]

theorem Time.sub_wrap (t u : Time) (ht : t.valid) (hu : u.valid) :
    wrap64 (wrap64 (wrap64 (t.sec - u.sec) * Second) + wrap64 (wrap32 (t.nsec - u.nsec)))
      = wrap64 (t.nanosSince u) := by
  obtain ⟨ht1, ht2, ht3, ht4, -⟩ := ht
  obtain ⟨hu1, hu2, hu3, hu4, -⟩ := hu
  unfold wrap64 wrap32 Second Time.nanosSince
  omega

theorem tdiv_tmod_facts (d : Int) :
    1000000000 * Int.tdiv d 1000000000 + Int.tmod d 1000000000 = d ∧
    -1000000000 < Int.tmod d 1000000000 ∧ Int.tmod d 1000000000 < 1000000000 ∧
    (0 ≤ d → 0 ≤ Int.tmod d 1000000000) ∧ (d ≤ 0 → Int.tmod d 1000000000 ≤ 0) := by
  rw [Int.tmod_def, tdiv_pos_eq _ _ (by norm_num : (0:Int) < 1000000000)]
  split <;> omega

theorem Time.Add_wall (u : Time) (hu : u.valid) (hum : u.mono = none) (d : Int)
    (hd1 : -(2 ^ 63) ≤ d) (hd2 : d < 2 ^ 63) :
    (u.Add d).mono = none ∧
    (u.Add d).nsec = (u.sec * 1000000000 + u.nsec + d) % 1000000000 ∧
    (u.Add d).sec =
      (if (u.sec * 1000000000 + u.nsec + d) / 1000000000 < -(2 ^ 63) then -(2 ^ 63 - 1)
       else if (u.sec * 1000000000 + u.nsec + d) / 1000000000 ≥ 2 ^ 63 then 2 ^ 63 - 1
       else (u.sec * 1000000000 + u.nsec + d) / 1000000000) := by
  obtain ⟨hu1, hu2, hu3, hu4, -⟩ := hu
  obtain ⟨h1, h2, h3, h4, h5⟩ := tdiv_tmod_facts d
  generalize hq : Int.tdiv d 1000000000 = q at h1
  generalize hr : Int.tmod d 1000000000 = r at h1 h2 h3 h4 h5
  have e1 : wrap32 r = r := by unfold wrap32; omega
  have e2 : wrap32 (u.nsec + r) = u.nsec + r := by unfold wrap32; omega
  have e3 : wrap64 q = q := by unfold wrap64; omega
  have e4 : wrap64 (q + 1) = q + 1 := by unfold wrap64; omega
  have e5 : wrap64 (q - 1) = q - 1 := by unfold wrap64; omega
  simp only [Time.Add, hq, hr, e1, e2, e3, e4, e5, Time.addSec, hum]
  split_ifs <;> simp only [hum, true_and, and_true] <;> (try dsimp only at *) <;> unfold wrap64 wrap32 at * <;> omega

theorem sub_core (ts tn us un D W k : Int)
    (ht1 : -(2 ^ 63) ≤ ts) (ht2 : ts < 2 ^ 63) (ht3 : 0 ≤ tn) (ht4 : tn < 1000000000)
    (hu1 : -(2 ^ 63) ≤ us) (hu2 : us < 2 ^ 63) (hu3 : 0 ≤ un) (hu4 : un < 1000000000)
    (hD : D = (ts - us) * 1000000000 + (tn - un))
    (hW : W = D - k * 2 ^ 64) (hW1 : -(2 ^ 63) ≤ W) (hW2 : W < 2 ^ 63) :
    (k = 0 → (us * 1000000000 + un + W) / 1000000000 = ts ∧
        (us * 1000000000 + un + W) % 1000000000 = tn) ∧
    (1 ≤ k → (us * 1000000000 + un + W) / 1000000000 < ts ∧ -(2 ^ 63 - 1) < ts ∧ us < ts) ∧
    (k ≤ -1 → ts < (us * 1000000000 + un + W) / 1000000000 ∧ ts < 2 ^ 63 - 1 ∧ ts < us) := by
  refine ⟨?_, ?_, ?_⟩
  · intro hk
    subst hk
    omega
  · intro hk
    omega
  · intro hk
    omega

theorem Time.Sub_wall (t u : Time) (ht : t.valid) (hu : u.valid)
    (htm : t.mono = none) (hum : u.mono = none) :
    t.Sub u = clamp64 (t.nanosSince u) := by
  have hw := Time.sub_wrap t u ht hu
  have hd : -(2 ^ 63) ≤ wrap64 (t.nanosSince u) ∧ wrap64 (t.nanosSince u) < 2 ^ 63 := by
    unfold wrap64; omega
  obtain ⟨a1, a2, a3⟩ := Time.Add_wall u hu hum (wrap64 (t.nanosSince u)) hd.1 hd.2
  obtain ⟨ht1, ht2, ht3, ht4, -⟩ := ht
  obtain ⟨hu1, hu2, hu3, hu4, -⟩ := hu
  unfold Time.Sub
  rw [htm, hum]
  simp only [hw, Time.Equal, a1, htm, a2, a3, Time.Before, clamp64, minDuration, maxDuration]
  clear hw a1 a2 a3
  have hDdef : t.nanosSince u = (t.sec - u.sec) * 1000000000 + (t.nsec - u.nsec) := rfl
  generalize t.nanosSince u = D at *
  have hWdef : wrap64 D = D - ((D + 2 ^ 63) / 2 ^ 64) * 2 ^ 64 := by unfold wrap64; omega
  generalize wrap64 D = W at *
  generalize hk : (D + 2 ^ 63) / 2 ^ 64 = k at hWdef
  obtain ⟨c0, c1, c2⟩ := sub_core t.sec t.nsec u.sec u.nsec D W k ht1 ht2 ht3 ht4
    hu1 hu2 hu3 hu4 hDdef hWdef hd.1 hd.2
  have f0 : D < -(2 ^ 63) ∨ D > 2 ^ 63 - 1 ∨ (k = 0 ∧ W = D) := by
    clear c0 c1 c2 hk; omega
  have f1 : D > 2 ^ 63 - 1 → 1 ≤ k := by clear c0 c1 c2 hk; omega
  have f2 : D < -(2 ^ 63) → k ≤ -1 := by clear c0 c1 c2 hk; omega
  clear hk hWdef hDdef
  generalize (u.sec * 1000000000 + u.nsec + W) / 1000000000 = Q at *
  generalize (u.sec * 1000000000 + u.nsec + W) % 1000000000 = R at *
  simp only [Bool.and_eq_true, Bool.or_eq_true, decide_eq_true_eq]
  rcases f0 with hlo | hhi | ⟨hk0, hWD⟩
  · obtain ⟨g1, g2, g3⟩ := c2 (f2 hlo)
    clear f1 f2 c0 c1 c2
    split_ifs <;> first | rfl | omega
  · obtain ⟨g1, g2, g3⟩ := c1 (f1 hhi)
    clear f1 f2 c0 c1 c2
    split_ifs <;> first | rfl | omega
  · obtain ⟨g1, g2⟩ := c0 hk0
    clear f1 f2 c0 c1 c2
    subst hWD
    split_ifs <;> first | rfl | omega

theorem whole_plus_rem (d c : Int) (hc : (c : ℚ) ≠ 0) :
    ((Int.tdiv d c : Int) : ℚ) + ((Int.tmod d c : Int) : ℚ) / (c : ℚ) = (d : ℚ) / (c : ℚ) := by
  have h := Int.tdiv_add_tmod d c
  have h' : ((c * Int.tdiv d c + Int.tmod d c : Int) : ℚ) = (d : ℚ) := by rw [h]
  push_cast at h'
  field_simp
  linarith

theorem Duration.Seconds_eq (d : Duration) : Duration.Seconds d = (d : ℚ) / 1000000000 := by
  have h := whole_plus_rem d 1000000000 (by norm_num)
  unfold Duration.Seconds Second
  simpa using h

theorem Duration.Minutes_eq (d : Duration) : Duration.Minutes d = (d : ℚ) / 60000000000 := by
  have h := whole_plus_rem d 60000000000 (by norm_num)
  unfold Duration.Minutes Minute Second
  norm_num at h ⊢
  exact h

theorem Duration.Hours_eq (d : Duration) : Duration.Hours d = (d : ℚ) / 3600000000000 := by
  have h := whole_plus_rem d 3600000000000 (by norm_num)
  unfold Duration.Hours Hour Minute Second
  norm_num at h ⊢
  exact h

/-! ## Clock normalisation -/

theorem Time.UTC_mono (t : Time) : t.UTC.mono = none := rfl

theorem Time.UTC_valid (t : Time) (ht : t.valid) : t.UTC.valid := by
  obtain ⟨h1, h2, h3, h4, -⟩ := ht
  refine ⟨h1, h2, h3, h4, ?_⟩
  intro h
  simp [Time.UTC, Time.stripMono] at h

theorem Time.nanosSince_UTC (t u : Time) : t.UTC.nanosSince u.UTC = t.nanosSince u := rfl

theorem Time.Sub_UTC (t u : Time) (ht : t.valid) (hu : u.valid) :
    t.UTC.Sub u.UTC = clamp64 (t.nanosSince u) := by
  rw [Time.Sub_wall t.UTC u.UTC (Time.UTC_valid t ht) (Time.UTC_valid u hu)
    (Time.UTC_mono t) (Time.UTC_mono u), Time.nanosSince_UTC]

theorem clamp64_mono (x y : Int) (h : x ≤ y) : clamp64 x ≤ clamp64 y := by
  unfold clamp64
  split_ifs <;> omega

/-! ## Construction -/

theorem appendHosts_eq_map (cfg : Option Config) (ds : List String) :
    appendHosts cfg ds =
      ds.map (fun h => ({ DomainName := h, Certificate := some Certificate.zero, tlsConfig := cfg } : Host)) := by
  unfold appendHosts
  have key : ∀ (acc : List Host) (l : List String),
      l.foldl (fun hosts h =>
        hosts ++ [({ DomainName := h, Certificate := some Certificate.zero, tlsConfig := cfg } : Host)]) acc
      = acc ++ l.map (fun h =>
          ({ DomainName := h, Certificate := some Certificate.zero, tlsConfig := cfg } : Host)) := by
    intro acc l
    induction l generalizing acc with
    | nil => simp
    | cons a l ih => simp [List.foldl_cons, ih]
  simpa using key [] ds

theorem appendFiles_ok (env : Env) (paths : List String) (hr : allReadable env paths) :
    ∀ (cm : CertMonitor) (pool : CertPool), cm.RootCAs = some pool →
      ∃ pool', cm.appendFiles env paths = .ret ({ cm with RootCAs := some pool' }, none) := by
  induction paths with
  | nil =>
    intro cm pool h
    refine ⟨pool, ?_⟩
    simp [CertMonitor.appendFiles, ← h]
  | cons p rest ih =>
    intro cm pool h
    obtain ⟨b, hb⟩ := hr p (List.mem_cons_self _ _)
    have hrest : allReadable env rest := fun q hq => hr q (List.mem_cons_of_mem _ hq)
    obtain ⟨pool', hp⟩ := ih hrest { cm with RootCAs := some (env.AppendCertsFromPEM pool b) }
      (env.AppendCertsFromPEM pool b) rfl
    refine ⟨pool', ?_⟩
    simp only [CertMonitor.appendFiles, hb, h]
    exact hp

theorem appendFiles_err (env : Env) (pre : List String) (p : String) (post : List String)
    (e : String) (hpre : allReadable env pre) (hp : env.ReadFile p = .error e) :
    ∀ (cm : CertMonitor) (pool : CertPool), cm.RootCAs = some pool →
      ∃ cm', cm.appendFiles env (pre ++ p :: post) = .ret (cm', some (readErrorMessage p e)) := by
  induction pre with
  | nil =>
    intro cm pool _
    exact ⟨cm, by simp [CertMonitor.appendFiles, hp]⟩
  | cons q rest ih =>
    intro cm pool h
    obtain ⟨b, hb⟩ := hpre q (List.mem_cons_self _ _)
    have hrest : allReadable env rest := fun r hr => hpre r (List.mem_cons_of_mem _ hr)
    obtain ⟨cm', hc⟩ := ih hrest { cm with RootCAs := some (env.AppendCertsFromPEM pool b) }
      (env.AppendCertsFromPEM pool b) rfl
    refine ⟨cm', ?_⟩
    simp only [List.cons_append, CertMonitor.appendFiles, hb, h]
    exact hc

theorem getCertPool_some (env : Env) (cm : CertMonitor) :
    ∃ pool, (cm.getCertPool env).RootCAs = some pool := by
  unfold CertMonitor.getCertPool
  cases env.SystemCertPool with
  | none => exact ⟨NewCertPool, rfl⟩
  | some p => exact ⟨p, rfl⟩

theorem first_unreadable (env : Env) (paths : List String)
    (h : ∃ p ∈ paths, ∃ e, env.ReadFile p = .error e) :
    ∃ pre p post e, paths = pre ++ p :: post ∧ allReadable env pre ∧
      env.ReadFile p = .error e := by
  induction paths with
  | nil => obtain ⟨p, hp, _⟩ := h; cases hp
  | cons q rest ih =>
    cases hq : env.ReadFile q with
    | error e =>
      have h0 : allReadable env [] := by
        intro r hr
        cases hr
      exact ⟨[], q, rest, e, rfl, h0, hq⟩
    | ok b =>
      have h' : ∃ p ∈ rest, ∃ e, env.ReadFile p = .error e := by
        obtain ⟨p, hp, e, he⟩ := h
        rcases List.mem_cons.mp hp with rfl | hp'
        · rw [hq] at he; cases he
        · exact ⟨p, hp', e, he⟩
      obtain ⟨pre, p, post, e, hsplit, hpre, he⟩ := ih h'
      refine ⟨q :: pre, p, post, e, by rw [hsplit]; rfl, ?_, he⟩
      intro r hr
      rcases List.mem_cons.mp hr with rfl | hr'
      · exact ⟨b, hq⟩
      · exact hpre r hr'

theorem appendFiles_total (env : Env) (paths : List String) :
    ∀ (cm : CertMonitor) (pool : CertPool), cm.RootCAs = some pool →
      (∃ pool', cm.appendFiles env paths = .ret ({ cm with RootCAs := some pool' }, none)) ∨
      (∃ cm' err, cm.appendFiles env paths = .ret (cm', some err)) := by
  induction paths with
  | nil =>
    intro cm pool h
    exact Or.inl ⟨pool, by simp [CertMonitor.appendFiles, ← h]⟩
  | cons p rest ih =>
    intro cm pool h
    cases hb : env.ReadFile p with
    | error e => exact Or.inr ⟨cm, readErrorMessage p e, by simp [CertMonitor.appendFiles, hb]⟩
    | ok b =>
      rcases ih { cm with RootCAs := some (env.AppendCertsFromPEM pool b) }
        (env.AppendCertsFromPEM pool b) rfl with ⟨pool', hp⟩ | ⟨cm', err, hp⟩
      · exact Or.inl ⟨pool', by simp only [CertMonitor.appendFiles, hb, h]; exact hp⟩
      · exact Or.inr ⟨cm', err, by simp only [CertMonitor.appendFiles, hb, h]; exact hp⟩

theorem NewCertMonitor_cases (env : Env) (ds : List String) (extra : Option (List String)) :
    (∃ pool, NewCertMonitor env ds extra =
        .ret ({ Hosts := appendHosts (getTLSConfig (some pool)) ds,
                AdditionalRootCAPaths := extra, RootCAs := some pool }, none)) ∨
    (∃ err, NewCertMonitor env ds extra = .ret (CertMonitor.zero, some err)) := by
  obtain ⟨pool, hpool⟩ := getCertPool_some env
    { Hosts := [], AdditionalRootCAPaths := extra, RootCAs := none }
  cases extra with
  | none =>
    refine Or.inl ⟨pool, ?_⟩
    simp only [NewCertMonitor, hpool]
    simp [CertMonitor.getCertPool]
  | some paths =>
    rcases appendFiles_total env paths _ pool hpool with ⟨pool', hp⟩ | ⟨cm', err, hp⟩
    · refine Or.inl ⟨pool', ?_⟩
      simp only [NewCertMonitor, CertMonitor.addAdditionalRootCertsFromFile]
      simp only [CertMonitor.getCertPool] at hp ⊢
      rw [hp]
    · refine Or.inr ⟨err, ?_⟩
      simp only [NewCertMonitor, CertMonitor.addAdditionalRootCertsFromFile]
      simp only [CertMonitor.getCertPool] at hp ⊢
      rw [hp]

/-! ## Expiry accessors -/

theorem seconds_eq (h : Host) (c : Certificate) (now : Time) (hc : h.Certificate = some c)
    (hv : c.NotAfter.valid) (hn : now.valid) :
    h.SecondsUntilExpired now = .ret ((clamp64 (c.NotAfter.nanosSince now) : ℚ) / 1000000000) := by
  simp only [Host.SecondsUntilExpired, hc, Time.Sub_UTC _ _ hv hn, Duration.Seconds_eq]

theorem minutes_eq (h : Host) (c : Certificate) (now : Time) (hc : h.Certificate = some c)
    (hv : c.NotAfter.valid) (hn : now.valid) :
    h.MinutesUntilExpired now = .ret ((clamp64 (c.NotAfter.nanosSince now) : ℚ) / 60000000000) := by
  simp only [Host.MinutesUntilExpired, hc, Time.Sub_UTC _ _ hv hn, Duration.Minutes_eq]

theorem hours_eq (h : Host) (c : Certificate) (now : Time) (hc : h.Certificate = some c)
    (hv : c.NotAfter.valid) (hn : now.valid) :
    h.HoursUntilExpired now = .ret ((clamp64 (c.NotAfter.nanosSince now) : ℚ) / 3600000000000) := by
  simp only [Host.HoursUntilExpired, hc, Time.Sub_UTC _ _ hv hn, Duration.Hours_eq]

theorem zero_valid : Time.zero.valid := by decide

theorem demoNow_valid : demoNow.valid := by decide

theorem demoLater_valid : demoLater.valid := by decide

theorem NewCertMonitor_ok (env : Env) (ds : List String) (extra : Option (List String))
    (cm : CertMonitor) (err : Option String)
    (hnew : NewCertMonitor env ds extra = .ret (cm, err)) :
    (err = none ∧ ∃ pool, cm.RootCAs = some pool ∧
      cm.Hosts = ds.map (fun d =>
        ({ DomainName := d, Certificate := some Certificate.zero,
           tlsConfig := getTLSConfig cm.RootCAs } : Host))) ∨
    (err ≠ none ∧ cm = CertMonitor.zero) := by
  rcases NewCertMonitor_cases env ds extra with ⟨pool, h⟩ | ⟨e, h⟩
  · rw [h] at hnew
    injection hnew with hnew
    injection hnew with h1 h2
    subst h1
    exact Or.inl ⟨h2.symm, pool, rfl, appendHosts_eq_map _ _⟩
  · rw [h] at hnew
    injection hnew with hnew
    injection hnew with h1 h2
    subst h1
    exact Or.inr ⟨by rw [← h2]; simp, rfl⟩

theorem host_of_new (env : Env) (ds : List String) (extra : Option (List String))
    (cm : CertMonitor) (err : Option String)
    (hnew : NewCertMonitor env ds extra = .ret (cm, err)) (h : Host) (hmem : h ∈ cm.Hosts) :
    h.Certificate = some Certificate.zero ∧ h.tlsConfig = getTLSConfig cm.RootCAs := by
  rcases NewCertMonitor_ok env ds extra cm err hnew with ⟨-, pool, -, hh⟩ | ⟨-, hz⟩
  · rw [hh] at hmem
    obtain ⟨d, -, rfl⟩ := List.mem_map.mp hmem
    exact ⟨rfl, rfl⟩
  · subst hz
    cases hmem

theorem demoMonitor_built : NewCertMonitor demoEnv ["example.com"] none = .ret (demoMonitor, none) :=
  rfl

theorem clamp64_placeholder (now : Time) (hn : now.valid) (hlater : Time.zero.earlier now) :
    clamp64 (Time.zero.nanosSince now) < 0 ∧
    (unixToInternal ≤ now.sec → clamp64 (Time.zero.nanosSince now) = -9223372036854775808) := by
  obtain ⟨a1, a2, a3, a4, -⟩ := hn
  have hu : unixToInternal = 62135596800 := by decide
  rw [hu]
  unfold Time.earlier at hlater
  unfold clamp64 Time.nanosSince
  simp only [Time.zero] at hlater ⊢
  constructor
  · split_ifs <;> omega
  · intro h
    split_ifs <;> omega

/-! ## Fetch sequences -/

theorem GetCertificate_keeps_cert (net : Net) (now : Time) (h h1 : Host) (e : Option String)
    (hg : h.GetCertificate net now = .ret (h1, e)) (hs : h.Certificate ≠ none) :
    h1.Certificate ≠ none := by
  unfold Host.GetCertificate at hg
  cases hd : net.Dial "tcp" (h.DomainName ++ ":" ++ "443") h.tlsConfig with
  | error msg => rw [hd] at hg; cases hg
  | ok state =>
    rw [hd] at hg
    cases hp : state.PeerCertificates with
    | nil =>
      simp only [hp] at hg
      injection hg with hg
      injection hg with h1e _
      rw [← h1e]
      exact hs
    | cons c rest =>
      simp only [hp, Host.SecondsUntilExpired] at hg
      injection hg with hg
      injection hg with h1e _
      rw [← h1e]
      simp

theorem fetches_keeps_cert (steps : List (Net × Time)) :
    ∀ (h h1 : Host), h.fetches steps = .ret h1 → h.Certificate ≠ none → h1.Certificate ≠ none := by
  induction steps with
  | nil =>
    intro h h1 hf hs
    simp only [Host.fetches] at hf
    injection hf with hf
    rw [← hf]
    exact hs
  | cons st rest ih =>
    intro h h1 hf hs
    obtain ⟨net, now⟩ := st
    simp only [Host.fetches] at hf
    cases hg : h.GetCertificate net now with
    | ret p =>
      obtain ⟨h2, e⟩ := p
      rw [hg] at hf
      exact ih h2 h1 hf (GetCertificate_keeps_cert net now h h2 e hg hs)
    | panicked msg => rw [hg] at hf; cases hf
    | fatal msg => rw [hg] at hf; cases hf

theorem demo_fetches :
    unfetchedHost.fetches [(demoNet, demoNow), (demoNet, demoLater)] = .ret fetchedHost := by
  simp [Host.fetches, Host.GetCertificate, unfetchedHost, fetchedHost, demoNet,
    Host.SecondsUntilExpired]

/-! ## Binary64 rounding -/

theorem roundHalfEven_intCast (n : Int) : roundHalfEven (n : ℚ) = n := by
  unfold roundHalfEven
  simp

theorem roundHalfEven_bounds (z : ℚ) :
    (⌊z⌋ = roundHalfEven z ∧ z - ⌊z⌋ ≤ 1 / 2 ∧ (z - ⌊z⌋ = 1 / 2 → ⌊z⌋ % 2 = 0)) ∨
    (⌊z⌋ + 1 = roundHalfEven z ∧ 1 / 2 ≤ z - ⌊z⌋ ∧ (z - ⌊z⌋ = 1 / 2 → ¬ ⌊z⌋ % 2 = 0)) := by
  unfold roundHalfEven
  simp only
  split_ifs with h1 h2 h3
  · exact Or.inl ⟨rfl, le_of_lt h1, fun h => absurd h (ne_of_lt h1)⟩
  · exact Or.inr ⟨rfl, le_of_lt h2, fun h => absurd h.symm (ne_of_lt h2)⟩
  · exact Or.inl ⟨rfl, le_of_not_lt h2, fun _ => h3⟩
  · exact Or.inr ⟨rfl, le_of_not_lt h1, fun _ => h3⟩

theorem roundHalfEven_err (z : ℚ) : |(roundHalfEven z : ℚ) - z| ≤ 1 / 2 := by
  have h1 := Int.floor_le z
  have h2 := Int.lt_floor_add_one z
  rw [abs_le]
  rcases roundHalfEven_bounds z with ⟨e, h, -⟩ | ⟨e, h, -⟩
  · rw [← e]; constructor <;> linarith
  · rw [← e]; push_cast; constructor <;> linarith

theorem roundHalfEven_mono (z w : ℚ) (h : z ≤ w) : roundHalfEven z ≤ roundHalfEven w := by
  have hf : ⌊z⌋ ≤ ⌊w⌋ := Int.floor_mono h
  rcases roundHalfEven_bounds z with ⟨ez, hz, pz⟩ | ⟨ez, hz, pz⟩ <;>
  rcases roundHalfEven_bounds w with ⟨ew, hw, pw⟩ | ⟨ew, hw, pw⟩
  · omega
  · omega
  · rcases lt_or_eq_of_le hf with hlt | heq
    · omega
    · exfalso
      rw [heq] at hz pz
      have e1 : w - ⌊w⌋ = 1 / 2 := by linarith
      have e2 : z - ⌊w⌋ = 1 / 2 := by linarith
      exact pz e2 (pw e1)
  · omega

theorem roundHalfEven_neg (z : ℚ) : roundHalfEven (-z) = -roundHalfEven z := by
  by_cases hint : (⌊z⌋ : ℚ) = z
  · rw [← hint, ← Int.cast_neg, roundHalfEven_intCast, roundHalfEven_intCast]
  · have h1 := Int.floor_le z
    have h2 := Int.lt_floor_add_one z
    have hlt : (⌊z⌋ : ℚ) < z := lt_of_le_of_ne h1 hint
    have hfl : ⌊-z⌋ = -⌊z⌋ - 1 := by
      rw [Int.floor_eq_iff]
      push_cast
      constructor <;> linarith
    rcases roundHalfEven_bounds z with ⟨ez, hz, pz⟩ | ⟨ez, hz, pz⟩ <;>
    rcases roundHalfEven_bounds (-z) with ⟨ew, hw, pw⟩ | ⟨ew, hw, pw⟩
    · exfalso
      rw [hfl] at hw pw
      push_cast at hw pw
      have e1 : z - ⌊z⌋ = 1 / 2 := by linarith
      have e2 : -z - (-(⌊z⌋ : ℚ) - 1) = 1 / 2 := by linarith
      have := pz e1
      have := pw e2
      omega
    · omega
    · omega
    · exfalso
      rw [hfl] at hw pw
      push_cast at hw pw
      have e1 : z - ⌊z⌋ = 1 / 2 := by linarith
      have e2 : -z - (-(⌊z⌋ : ℚ) - 1) = 1 / 2 := by linarith
      have := pz e1
      have := pw e2
      omega

theorem two_zpow_pos (e : Int) : (0 : ℚ) < 2 ^ e := zpow_pos (by norm_num) e

theorem float64_zero : float64 0 = 0 := by
  unfold float64
  simp [roundHalfEven_intCast, show roundHalfEven (0 : ℚ) = 0 from by
    simpa using roundHalfEven_intCast 0]

theorem float64_neg (x : ℚ) : float64 (-x) = -float64 x := by
  unfold float64 ulpExp
  rw [abs_neg, neg_div, roundHalfEven_neg]
  push_cast
  ring

theorem float64_nonneg (x : ℚ) (hx : 0 ≤ x) : 0 ≤ float64 x := by
  unfold float64
  have h0 : (0 : ℚ) ≤ x / 2 ^ ulpExp x := div_nonneg hx (le_of_lt (two_zpow_pos _))
  have h1 := roundHalfEven_mono 0 _ h0
  have h2 : roundHalfEven (0 : ℚ) = 0 := by simpa using roundHalfEven_intCast 0
  rw [h2] at h1
  have h3 : (0 : ℚ) ≤ (roundHalfEven (x / 2 ^ ulpExp x) : ℚ) := by exact_mod_cast h1
  exact mul_nonneg h3 (le_of_lt (two_zpow_pos _))

theorem log_le_of_pos (x : ℚ) (hx : 0 < x) : (2 : ℚ) ^ Int.log 2 x ≤ x := by
  have := Int.zpow_log_le_self (R := ℚ) (b := 2) (r := x) (by norm_num) hx
  simpa using this

theorem lt_log_succ (x : ℚ) : x < (2 : ℚ) ^ (Int.log 2 x + 1) := by
  have := Int.lt_zpow_succ_log_self (R := ℚ) (b := 2) (by norm_num) x
  simpa using this

/-- The scaled significand stays below `2 ^ 53`. -/
theorem scaled_lt (x : ℚ) (hx : 0 < x) : x / 2 ^ ulpExp x < 2 ^ (53 : ℕ) := by
  rw [div_lt_iff₀ (two_zpow_pos _)]
  have h1 := lt_log_succ x
  have h2 : Int.log 2 x + 1 ≤ 53 + ulpExp x := by
    unfold ulpExp
    rw [abs_of_pos hx]
    omega
  calc x < (2 : ℚ) ^ (Int.log 2 x + 1) := h1
    _ ≤ (2 : ℚ) ^ (53 + ulpExp x) := zpow_le_zpow_right₀ (by norm_num) h2
    _ = 2 ^ (53 : ℕ) * 2 ^ ulpExp x := by
      rw [zpow_add₀ (by norm_num : (2 : ℚ) ≠ 0)]
      norm_num

/-- In the normal range the scaled significand is at least `2 ^ 52`. -/
theorem scaled_ge (x : ℚ) (hx : 0 < x) (hn : -1074 < ulpExp x) :
    (2 : ℚ) ^ (52 : ℕ) ≤ x / 2 ^ ulpExp x := by
  rw [le_div_iff₀ (two_zpow_pos _)]
  have h1 := log_le_of_pos x hx
  have h2 : 52 + ulpExp x = Int.log 2 x := by
    unfold ulpExp at hn ⊢
    rw [abs_of_pos hx] at hn ⊢
    omega
  calc (2 : ℚ) ^ (52 : ℕ) * 2 ^ ulpExp x = (2 : ℚ) ^ (52 + ulpExp x) := by
        rw [zpow_add₀ (by norm_num : (2 : ℚ) ≠ 0)]
        norm_num
    _ = (2 : ℚ) ^ Int.log 2 x := by rw [h2]
    _ ≤ x := h1

theorem ulpExp_mono (x y : ℚ) (hx : 0 < x) (h : x ≤ y) : ulpExp x ≤ ulpExp y := by
  unfold ulpExp
  rw [abs_of_pos hx, abs_of_pos (lt_of_lt_of_le hx h)]
  have := Int.log_mono_right (R := ℚ) (b := 2) hx h
  omega

theorem float64_mono_pos (x y : ℚ) (hx : 0 < x) (h : x ≤ y) : float64 x ≤ float64 y := by
  have hy : 0 < y := lt_of_lt_of_le hx h
  rcases lt_or_eq_of_le (ulpExp_mono x y hx h) with hlt | heq
  · -- different binades
    have hxs := scaled_lt x hx
    have hys := scaled_ge y hy (by unfold ulpExp at hlt ⊢; omega)
    have r1 : roundHalfEven (x / 2 ^ ulpExp x) ≤ 2 ^ 53 := by
      have := roundHalfEven_mono _ _ (le_of_lt hxs)
      have e : ((2 : ℚ) ^ (53 : ℕ)) = ((2 ^ 53 : Int) : ℚ) := by norm_num
      rw [e, roundHalfEven_intCast] at this
      exact this
    have r2 : (2 ^ 52 : Int) ≤ roundHalfEven (y / 2 ^ ulpExp y) := by
      have := roundHalfEven_mono _ _ hys
      have e : ((2 : ℚ) ^ (52 : ℕ)) = ((2 ^ 52 : Int) : ℚ) := by norm_num
      rw [e, roundHalfEven_intCast] at this
      exact this
    have q1 : (roundHalfEven (x / 2 ^ ulpExp x) : ℚ) ≤ 2 ^ (53 : ℕ) := by exact_mod_cast r1
    have q2 : (2 : ℚ) ^ (52 : ℕ) ≤ (roundHalfEven (y / 2 ^ ulpExp y) : ℚ) := by exact_mod_cast r2
    have hstep : ulpExp x + 1 ≤ ulpExp y := hlt
    unfold float64
    calc (roundHalfEven (x / 2 ^ ulpExp x) : ℚ) * 2 ^ ulpExp x
        ≤ 2 ^ (53 : ℕ) * 2 ^ ulpExp x :=
          mul_le_mul_of_nonneg_right q1 (le_of_lt (two_zpow_pos _))
      _ = 2 ^ (52 : ℕ) * 2 ^ (ulpExp x + 1) := by
          rw [zpow_add₀ (by norm_num : (2 : ℚ) ≠ 0)]
          norm_num
          ring
      _ ≤ 2 ^ (52 : ℕ) * 2 ^ ulpExp y :=
          mul_le_mul_of_nonneg_left (zpow_le_zpow_right₀ (by norm_num) hstep) (by norm_num)
      _ ≤ (roundHalfEven (y / 2 ^ ulpExp y) : ℚ) * 2 ^ ulpExp y :=
          mul_le_mul_of_nonneg_right q2 (le_of_lt (two_zpow_pos _))
  · unfold float64
    rw [heq]
    have hdiv : x / 2 ^ ulpExp y ≤ y / 2 ^ ulpExp y :=
      div_le_div_of_nonneg_right h (le_of_lt (two_zpow_pos _))
    have := roundHalfEven_mono _ _ hdiv
    have q : (roundHalfEven (x / 2 ^ ulpExp y) : ℚ) ≤ (roundHalfEven (y / 2 ^ ulpExp y) : ℚ) := by
      exact_mod_cast this
    exact mul_le_mul_of_nonneg_right q (le_of_lt (two_zpow_pos _))

theorem float64_mono (x y : ℚ) (h : x ≤ y) : float64 x ≤ float64 y := by
  rcases lt_trichotomy 0 x with hx | hx | hx
  · exact float64_mono_pos x y hx h
  · rw [← hx, float64_zero]
    exact float64_nonneg y (hx ▸ h)
  · rcases le_or_lt 0 y with hy | hy
    · have h1 := float64_nonneg (-x) (by linarith)
      rw [float64_neg] at h1
      have h2 := float64_nonneg y hy
      linarith
    · have h1 := float64_mono_pos (-y) (-x) (by linarith) (by linarith)
      rw [float64_neg, float64_neg] at h1
      linarith

theorem ulpExp_int_nonpos (n : Int) (hn : |n| < 2 ^ 53) : ulpExp (n : ℚ) ≤ 0 := by
  unfold ulpExp
  rcases eq_or_ne n 0 with rfl | hne
  · simp [Int.log_of_right_le_zero]
  · have hpos : (0 : ℚ) < |(n : ℚ)| := abs_pos.mpr (by exact_mod_cast hne)
    have hlt : |(n : ℚ)| < ((2 : ℕ) : ℚ) ^ (53 : Int) := by
      have : ((|n| : Int) : ℚ) < ((2 ^ 53 : Int) : ℚ) := by exact_mod_cast hn
      rw [Int.cast_abs] at this
      norm_num at this ⊢
      exact this
    have := (Int.lt_zpow_iff_log_lt (R := ℚ) (b := 2) (by norm_num) hpos).mp hlt
    omega

/-- Integers below `2 ^ 53` in magnitude are binary64 values. -/
theorem float64_int (n : Int) (hn : |n| < 2 ^ 53) : float64 (n : ℚ) = n := by
  have he := ulpExp_int_nonpos n hn
  unfold float64
  generalize ulpExp (n : ℚ) = e at he
  obtain ⟨m, rfl⟩ : ∃ m : ℕ, e = -(m : Int) := ⟨e.natAbs, by omega⟩
  have h2 : (2 : ℚ) ^ (-(m : Int)) = ((2 : ℚ) ^ m)⁻¹ := by
    rw [zpow_neg, zpow_natCast]
  have h3 : (n : ℚ) / ((2 : ℚ) ^ m)⁻¹ = ((n * 2 ^ m : Int) : ℚ) := by
    push_cast
    rw [div_inv_eq_mul]
  rw [h2, h3, roundHalfEven_intCast]
  push_cast
  have hp : (2 : ℚ) ^ m ≠ 0 := pow_ne_zero _ (by norm_num)
  field_simp

/-- In the normal range rounding to binary64 has relative error at most `2 ^ (-53)`. -/
theorem float64_err (x : ℚ) (hx : (2 : ℚ) ^ (-1022 : Int) ≤ |x|) :
    |float64 x - x| ≤ |x| / 2 ^ (53 : ℕ) := by
  have hpos : (0 : ℚ) < |x| := lt_of_lt_of_le (two_zpow_pos _) hx
  have hlog : (-1022 : Int) ≤ Int.log 2 |x| := by
    have h' : ((2 : ℕ) : ℚ) ^ (-1022 : Int) ≤ |x| := by simpa using hx
    exact (Int.zpow_le_iff_le_log (R := ℚ) (b := 2) (by norm_num) hpos).mp h'
  have he : ulpExp x = Int.log 2 |x| - 52 := by
    unfold ulpExp
    omega
  have hu : (2 : ℚ) ^ ulpExp x * 2 ^ (52 : ℕ) ≤ |x| := by
    have h1 := log_le_of_pos |x| hpos
    calc (2 : ℚ) ^ ulpExp x * 2 ^ (52 : ℕ) = (2 : ℚ) ^ (ulpExp x + 52) := by
          rw [zpow_add₀ (by norm_num : (2 : ℚ) ≠ 0)]
          norm_num
      _ = (2 : ℚ) ^ Int.log 2 |x| := by rw [he]; congr 1; ring
      _ ≤ |x| := h1
  have hr := roundHalfEven_err (x / 2 ^ ulpExp x)
  have hp := two_zpow_pos (ulpExp x)
  have key : float64 x - x = ((roundHalfEven (x / 2 ^ ulpExp x) : ℚ) - x / 2 ^ ulpExp x)
      * 2 ^ ulpExp x := by
    unfold float64
    field_simp
  rw [key, abs_mul, abs_of_pos hp]
  have h4 : |(roundHalfEven (x / 2 ^ ulpExp x) : ℚ) - x / 2 ^ ulpExp x| * 2 ^ ulpExp x
      ≤ 1 / 2 * 2 ^ ulpExp x := mul_le_mul_of_nonneg_right hr (le_of_lt hp)
  rw [le_div_iff₀ (by norm_num : (0 : ℚ) < 2 ^ (53 : ℕ))]
  have h5 : (1 : ℚ) / 2 * 2 ^ ulpExp x * 2 ^ (53 : ℕ) = 2 ^ ulpExp x * 2 ^ (52 : ℕ) := by
    norm_num
    ring
  calc |(roundHalfEven (x / 2 ^ ulpExp x) : ℚ) - x / 2 ^ ulpExp x| * 2 ^ ulpExp x * 2 ^ (53 : ℕ)
      ≤ 1 / 2 * 2 ^ ulpExp x * 2 ^ (53 : ℕ) :=
        mul_le_mul_of_nonneg_right h4 (by norm_num)
    _ = 2 ^ ulpExp x * 2 ^ (52 : ℕ) := h5
    _ ≤ |x| := hu

theorem tiny_le (v : ℚ) (hv : (1 : ℚ) / 2 ^ (54 : ℕ) ≤ v) : (2 : ℚ) ^ (-1022 : Int) ≤ |v| := by
  have h1 : (2 : ℚ) ^ (-1022 : Int) ≤ (2 : ℚ) ^ (-54 : Int) :=
    zpow_le_zpow_right₀ (by norm_num) (by norm_num)
  have h2 : (2 : ℚ) ^ (-54 : Int) = 1 / 2 ^ (54 : ℕ) := by
    rw [zpow_neg, one_div]
    norm_num
  have h3 : 0 ≤ v := le_trans (by positivity) hv
  rw [abs_of_nonneg h3]
  exact le_trans (le_trans h1 (le_of_eq h2)) hv

/-- Error of the binary64 evaluation of `q + r / U` for a whole part `q` and a
remainder `r` of the same sign. -/
theorem float_quot_err_nonneg (q r U : Int) (hU : 0 < U) (hU2 : U < 2 ^ 53)
    (hq : |q| < 2 ^ 53) (hr : r < U) (hq0 : 0 ≤ q) (hr0 : 0 ≤ r) :
    |float64 (float64 (q : ℚ) + float64 (float64 (r : ℚ) / (U : ℚ))) - ((q : ℚ) + (r : ℚ) / (U : ℚ))|
      ≤ |(q : ℚ) + (r : ℚ) / (U : ℚ)| / 2 ^ (51 : ℕ) := by
  have hrabs : |r| < 2 ^ 53 := by rw [abs_of_nonneg hr0]; omega
  rw [float64_int q hq, float64_int r hrabs]
  have hUq : (0 : ℚ) < (U : ℚ) := by exact_mod_cast hU
  have hU53 : (U : ℚ) < 2 ^ (53 : ℕ) := by exact_mod_cast hU2
  have hqq : (0 : ℚ) ≤ (q : ℚ) := by exact_mod_cast hq0
  have hrq : (0 : ℚ) ≤ (r : ℚ) := by exact_mod_cast hr0
  have hrho : (0 : ℚ) ≤ (r : ℚ) / U := div_nonneg hrq (le_of_lt hUq)
  have hfr0 : 0 ≤ float64 ((r : ℚ) / U) := float64_nonneg _ hrho
  -- rounding of the quotient
  have e1 : |float64 ((r : ℚ) / U) - (r : ℚ) / U| ≤ ((r : ℚ) / U) / 2 ^ (53 : ℕ) := by
    rcases eq_or_lt_of_le hr0 with h0 | hpos
    · rw [← h0]; simp [float64_zero]
    · have hr1 : (1 : ℚ) ≤ (r : ℚ) := by exact_mod_cast hpos
      have hge : (1 : ℚ) / 2 ^ (54 : ℕ) ≤ (r : ℚ) / U := by
        rw [div_le_div_iff₀ (by norm_num) hUq]
        nlinarith
      have := float64_err _ (tiny_le _ hge)
      rwa [abs_of_nonneg hrho] at this
  have hx0 : (0 : ℚ) ≤ (q : ℚ) + (r : ℚ) / U := add_nonneg hqq hrho
  have hy0 : (0 : ℚ) ≤ (q : ℚ) + float64 ((r : ℚ) / U) := add_nonneg hqq hfr0
  obtain ⟨e1a, e1b⟩ := abs_le.mp e1
  have hpow : (0 : ℚ) < 2 ^ (53 : ℕ) := by norm_num
  have hsmall : ((r : ℚ) / U) / 2 ^ (53 : ℕ) ≤ (r : ℚ) / U := div_le_self hrho (by norm_num)
  -- rounding of the sum
  have e2 : |float64 ((q : ℚ) + float64 ((r : ℚ) / U)) - ((q : ℚ) + float64 ((r : ℚ) / U))|
      ≤ ((q : ℚ) + float64 ((r : ℚ) / U)) / 2 ^ (53 : ℕ) := by
    rcases eq_or_lt_of_le hy0 with h0 | hpos
    · rw [← h0]; simp [float64_zero]
    · have hge : (1 : ℚ) / 2 ^ (54 : ℕ) ≤ (q : ℚ) + float64 ((r : ℚ) / U) := by
        rcases eq_or_lt_of_le hq0 with hq00 | hqpos
        · rw [← hq00] at hpos ⊢
          simp only [Int.cast_zero, zero_add] at hpos ⊢
          have hrpos : 0 < r := by
            rcases eq_or_lt_of_le hr0 with h0 | hp
            · exfalso
              rw [← h0] at hpos
              simp [float64_zero] at hpos
            · exact hp
          have hr1 : (1 : ℚ) ≤ (r : ℚ) := by exact_mod_cast hrpos
          have hge1 : (1 : ℚ) / 2 ^ (53 : ℕ) ≤ (r : ℚ) / U := by
            rw [div_le_div_iff₀ (by norm_num) hUq]
            nlinarith
          have hhalf : ((r : ℚ) / U) / 2 ^ (53 : ℕ) ≤ ((r : ℚ) / U) / 2 :=
            div_le_div_of_nonneg_left hrho (by norm_num) (by norm_num)
          have : (1 : ℚ) / 2 ^ (54 : ℕ) = (1 / 2 ^ (53 : ℕ)) / 2 := by norm_num
          rw [this]
          linarith
        · have hq1 : (1 : ℚ) ≤ (q : ℚ) := by exact_mod_cast hqpos
          have : (1 : ℚ) / 2 ^ (54 : ℕ) ≤ 1 := by norm_num
          linarith
      have := float64_err _ (tiny_le _ hge)
      rwa [abs_of_nonneg hy0] at this
  obtain ⟨e2a, e2b⟩ := abs_le.mp e2
  rw [abs_of_nonneg hx0, abs_le]
  have hy_le : (q : ℚ) + float64 ((r : ℚ) / U) ≤ 2 * ((q : ℚ) + (r : ℚ) / U) := by linarith
  have hdiv : ((q : ℚ) + float64 ((r : ℚ) / U)) / 2 ^ (53 : ℕ)
      ≤ 2 * ((q : ℚ) + (r : ℚ) / U) / 2 ^ (53 : ℕ) :=
    div_le_div_of_nonneg_right hy_le (le_of_lt hpow)
  have hrx : ((r : ℚ) / U) / 2 ^ (53 : ℕ) ≤ ((q : ℚ) + (r : ℚ) / U) / 2 ^ (53 : ℕ) :=
    div_le_div_of_nonneg_right (by linarith) (le_of_lt hpow)
  have hfin : 2 * ((q : ℚ) + (r : ℚ) / U) / 2 ^ (53 : ℕ) + ((q : ℚ) + (r : ℚ) / U) / 2 ^ (53 : ℕ)
      ≤ ((q : ℚ) + (r : ℚ) / U) / 2 ^ (51 : ℕ) := by
    have : ((q : ℚ) + (r : ℚ) / U) / 2 ^ (51 : ℕ) = 4 * (((q : ℚ) + (r : ℚ) / U) / 2 ^ (53 : ℕ)) := by
      norm_num
      ring
    rw [this]
    have h0 : 0 ≤ ((q : ℚ) + (r : ℚ) / U) / 2 ^ (53 : ℕ) := div_nonneg hx0 (le_of_lt hpow)
    linarith
  constructor <;> linarith

theorem float_quot_err (q r U : Int) (hU : 0 < U) (hU2 : U < 2 ^ 53)
    (hq : |q| < 2 ^ 53) (hr : |r| < U) (hs : (0 ≤ q ∧ 0 ≤ r) ∨ (q ≤ 0 ∧ r ≤ 0)) :
    |float64 (float64 (q : ℚ) + float64 (float64 (r : ℚ) / (U : ℚ))) - ((q : ℚ) + (r : ℚ) / (U : ℚ))|
      ≤ |(q : ℚ) + (r : ℚ) / (U : ℚ)| / 2 ^ (51 : ℕ) := by
  rcases hs with ⟨hq0, hr0⟩ | ⟨hq0, hr0⟩
  · exact float_quot_err_nonneg q r U hU hU2 hq (by rw [abs_of_nonneg hr0] at hr; exact hr) hq0 hr0
  · have h := float_quot_err_nonneg (-q) (-r) U hU hU2 (by rw [abs_neg]; exact hq)
      (by rw [abs_of_nonpos hr0] at hr; exact hr) (by omega) (by omega)
    have e1 : float64 (float64 ((-q : Int) : ℚ) + float64 (float64 ((-r : Int) : ℚ) / (U : ℚ)))
        = -float64 (float64 (q : ℚ) + float64 (float64 (r : ℚ) / (U : ℚ))) := by
      push_cast
      rw [float64_neg (q : ℚ), float64_neg (r : ℚ), neg_div, float64_neg, ← neg_add, float64_neg]
    have e2 : (((-q : Int) : ℚ) + ((-r : Int) : ℚ) / (U : ℚ)) = -((q : ℚ) + (r : ℚ) / (U : ℚ)) := by
      push_cast
      ring
    rw [e1, e2, abs_neg] at h
    have e3 : -float64 (float64 (q : ℚ) + float64 (float64 (r : ℚ) / (U : ℚ)))
        - -((q : ℚ) + (r : ℚ) / (U : ℚ))
        = -(float64 (float64 (q : ℚ) + float64 (float64 (r : ℚ) / (U : ℚ)))
          - ((q : ℚ) + (r : ℚ) / (U : ℚ))) := by ring
    rw [e3, abs_neg] at h
    exact h

theorem roundHalfEven_eq_of_near (z : ℚ) (n : Int) (h1 : (n : ℚ) - 1 / 2 < z)
    (h2 : z < (n : ℚ) + 1 / 2) : roundHalfEven z = n := by
  have h := abs_le.mp (roundHalfEven_err z)
  have a : ((roundHalfEven z - n : Int) : ℚ) < 1 := by push_cast; linarith [h.1, h.2]
  have b : (-1 : ℚ) < ((roundHalfEven z - n : Int) : ℚ) := by push_cast; linarith [h.1, h.2]
  have a' : roundHalfEven z - n < 1 := by exact_mod_cast a
  have b' : -1 < roundHalfEven z - n := by exact_mod_cast b
  omega

theorem roundHalfEven_tie (n : Int) (he : n % 2 = 0) : roundHalfEven ((n : ℚ) + 1 / 2) = n := by
  have hf : ⌊(n : ℚ) + 1 / 2⌋ = n := by
    rw [Int.floor_eq_iff]
    constructor <;> linarith
  unfold roundHalfEven
  simp only [hf]
  have e : (n : ℚ) + 1 / 2 - (n : ℚ) = 1 / 2 := by ring
  rw [e]
  simp [he]

theorem ulpExp_eq_of (x : ℚ) (e : Int) (hx : 0 < x) (he : -1074 ≤ e)
    (hlo : (2 : ℚ) ^ (e + 52) ≤ x) (hhi : x < (2 : ℚ) ^ (e + 53)) : ulpExp x = e := by
  have h1 : e + 52 ≤ Int.log 2 x :=
    (Int.zpow_le_iff_le_log (R := ℚ) (b := 2) (by norm_num) hx).mp (by simpa using hlo)
  have h2 : Int.log 2 x < e + 53 :=
    (Int.lt_zpow_iff_log_lt (R := ℚ) (b := 2) (by norm_num) hx).mp (by simpa using hhi)
  unfold ulpExp
  rw [abs_of_pos hx]
  omega

theorem float64_eq_of (x : ℚ) (e m : Int) (hx : 0 < x) (he : -1074 ≤ e)
    (hlo : (2 : ℚ) ^ (e + 52) ≤ x) (hhi : x < (2 : ℚ) ^ (e + 53))
    (hm : roundHalfEven (x / 2 ^ e) = m) : float64 x = (m : ℚ) * 2 ^ e := by
  unfold float64
  rw [ulpExp_eq_of x e hx he hlo hhi, hm]

theorem float64_two_thirds : float64 (2 / 3) = 6004799503160661 / 9007199254740992 := by
  have h := float64_eq_of (2 / 3) (-53) 6004799503160661 (by norm_num) (by norm_num)
    (by norm_num) (by norm_num)
    (roundHalfEven_eq_of_near _ _ (by norm_num) (by norm_num))
  rw [h]
  norm_num

theorem float64_five_thirds :
    float64 (1 + 6004799503160661 / 9007199254740992) = 3752999689475413 / 2251799813685248 := by
  have hz : (1 + 6004799503160661 / 9007199254740992 : ℚ) / 2 ^ (-52 : Int)
      = ((7505999378950826 : Int) : ℚ) + 1 / 2 := by norm_num
  have h := float64_eq_of (1 + 6004799503160661 / 9007199254740992) (-52) 7505999378950826
    (by norm_num) (by norm_num) (by norm_num) (by norm_num)
    (by rw [hz]; exact roundHalfEven_tie _ (by decide))
  rw [h]
  norm_num

theorem SecondsFloat64_hundred : Duration.SecondsFloat64 100000000000 = 100 := by
  have q : Int.tdiv 100000000000 Second = 100 := by decide
  have r : Int.tmod 100000000000 Second = 0 := by decide
  unfold Duration.SecondsFloat64
  simp only [q, r]
  have h100 : float64 ((100 : Int) : ℚ) = ((100 : Int) : ℚ) := float64_int 100 (by decide)
  have h0 : float64 ((0 : Int) : ℚ) = ((0 : Int) : ℚ) := float64_int 0 (by decide)
  rw [h100, h0]
  norm_num
  rw [float64_zero]
  norm_num
  exact_mod_cast h100

theorem MinutesFloat64_hundred :
    Duration.MinutesFloat64 100000000000 = 3752999689475413 / 2251799813685248 := by
  have q : Int.tdiv 100000000000 Minute = 1 := by decide
  have r : Int.tmod 100000000000 Minute = 40000000000 := by decide
  unfold Duration.MinutesFloat64
  simp only [q, r]
  have h1 : float64 ((1 : Int) : ℚ) = ((1 : Int) : ℚ) := float64_int 1 (by decide)
  have h2 : float64 ((40000000000 : Int) : ℚ) = ((40000000000 : Int) : ℚ) :=
    float64_int 40000000000 (by decide)
  rw [h1, h2]
  have e : (((40000000000 : Int) : ℚ) / 60000000000) = 2 / 3 := by norm_num
  rw [e, float64_two_thirds]
  have e1 : (((1 : Int)) : ℚ) = 1 := by norm_num
  rw [e1]
  exact float64_five_thirds

theorem float64_minutes_product :
    float64 (3752999689475413 / 2251799813685248 * 60) = 7036874417766399 / 70368744177664 := by
  have h := float64_eq_of (3752999689475413 / 2251799813685248 * 60) (-46) 7036874417766399
    (by norm_num) (by norm_num) (by norm_num) (by norm_num)
    (roundHalfEven_eq_of_near _ _ (by norm_num) (by norm_num))
  rw [h]
  norm_num

/-! ## Binary64 value of the unit conversions -/

theorem wrap64_range (x : Int) : -(2 ^ 63) ≤ wrap64 x ∧ wrap64 x < 2 ^ 63 := by
  unfold wrap64
  omega

theorem Time.Sub_range (t u : Time) : -(2 ^ 63) ≤ t.Sub u ∧ t.Sub u < 2 ^ 63 := by
  have hmin : -(2 ^ 63) ≤ minDuration ∧ minDuration < 2 ^ 63 := by
    unfold minDuration
    constructor <;> norm_num
  have hmax : -(2 ^ 63) ≤ maxDuration ∧ maxDuration < 2 ^ 63 := by
    unfold maxDuration
    constructor <;> norm_num
  unfold Time.Sub
  split
  · unfold Time.subMono
    simp only
    split_ifs
    · exact hmax
    · exact hmin
    · exact wrap64_range _
  · simp only
    split_ifs
    · exact wrap64_range _
    · exact hmin
    · exact hmax

/-- Whole part and remainder of the truncated division by a positive unit. -/
theorem unit_facts (d U : Int) (hU : 0 < U) :
    U * Int.tdiv d U + Int.tmod d U = d ∧ |Int.tmod d U| < U ∧ |Int.tdiv d U| ≤ |d| ∧
    ((0 ≤ Int.tdiv d U ∧ 0 ≤ Int.tmod d U) ∨ (Int.tdiv d U ≤ 0 ∧ Int.tmod d U ≤ 0)) := by
  have hsum := Int.tdiv_add_tmod d U
  rcases le_or_lt 0 d with hd | hd
  · have h1 : 0 ≤ Int.tmod d U := Int.tmod_nonneg U hd
    have h2 : Int.tmod d U < U := Int.tmod_lt_of_pos d hU
    have h3 : 0 ≤ Int.tdiv d U := Int.tdiv_nonneg hd (le_of_lt hU)
    refine ⟨hsum, by rw [abs_of_nonneg h1]; exact h2, ?_, Or.inl ⟨h3, h1⟩⟩
    rw [abs_of_nonneg h3, abs_of_nonneg hd]
    nlinarith
  · have hd' : 0 ≤ -d := by omega
    have h1 : 0 ≤ Int.tmod (-d) U := Int.tmod_nonneg U hd'
    have h2 : Int.tmod (-d) U < U := Int.tmod_lt_of_pos (-d) hU
    have h3 : 0 ≤ Int.tdiv (-d) U := Int.tdiv_nonneg hd' (le_of_lt hU)
    have hneg : Int.tmod (-d) U = -Int.tmod d U := by
      rw [Int.tmod_def, Int.tmod_def, Int.neg_tdiv]
      ring
    rw [hneg] at h1 h2
    rw [Int.neg_tdiv] at h3
    refine ⟨hsum, by rw [abs_of_nonpos (by omega)]; omega, ?_, Or.inr ⟨by omega, by omega⟩⟩
    rw [abs_of_nonpos (by omega : Int.tdiv d U ≤ 0), abs_of_neg hd]
    nlinarith

/-- Error of the binary64 evaluation of whole part plus remainder over the unit
against the exact quotient, for an `int64` duration and a unit between `10 ^ 9`
and `2 ^ 53`. -/
theorem unitFloat64_err (d U : Int) (hd1 : -(2 ^ 63) ≤ d) (hd2 : d < 2 ^ 63)
    (hU1 : 1000000000 ≤ U) (hU2 : U < 2 ^ 53) :
    |float64 (float64 ((Int.tdiv d U : Int) : ℚ)
        + float64 (float64 ((Int.tmod d U : Int) : ℚ) / (U : ℚ))) - (d : ℚ) / (U : ℚ)|
      ≤ |(d : ℚ) / (U : ℚ)| / 2 ^ (51 : ℕ) := by
  have hU : 0 < U := by omega
  obtain ⟨hsum, hr, hq, hs⟩ := unit_facts d U hU
  have hq53 : |Int.tdiv d U| < 2 ^ 53 := by
    have hUq : U * |Int.tdiv d U| ≤ |d| := by
      have := congrArg (fun z : Int => |z|) hsum
      simp only at this
      rcases hs with ⟨a, b⟩ | ⟨a, b⟩
      · rw [abs_of_nonneg a, ← this, abs_of_nonneg (by positivity)]
        nlinarith
      · rw [abs_of_nonpos a, ← this, abs_of_nonpos (by nlinarith)]
        nlinarith
    have hdabs : |d| ≤ 2 ^ 63 := by rw [abs_le]; omega
    by_contra hcon
    push_neg at hcon
    nlinarith
  have h := float_quot_err (Int.tdiv d U) (Int.tmod d U) U hU hU2 hq53 hr hs
  have hx : ((Int.tdiv d U : Int) : ℚ) + ((Int.tmod d U : Int) : ℚ) / (U : ℚ) = (d : ℚ) / (U : ℚ) :=
    whole_plus_rem d U (by exact_mod_cast (ne_of_gt hU))
  rw [hx] at h
  exact h

theorem float64_one : float64 1 = 1 := by
  have := float64_int 1 (by decide)
  simpa using this

theorem float64_unit_frac (r : Int) (h1 : -1000000000 < r) (h2 : r < 1000000000) :
    (0 ≤ r → 0 ≤ float64 ((r : ℚ) / 1000000000) ∧ float64 ((r : ℚ) / 1000000000) ≤ 1) ∧
    (r ≤ 0 → -1 ≤ float64 ((r : ℚ) / 1000000000) ∧ float64 ((r : ℚ) / 1000000000) ≤ 0) := by
  have a1 : (-1000000000 : ℚ) < (r : ℚ) := by exact_mod_cast h1
  have a2 : (r : ℚ) < 1000000000 := by exact_mod_cast h2
  constructor
  · intro h0
    have b : (0 : ℚ) ≤ (r : ℚ) := by exact_mod_cast h0
    refine ⟨float64_nonneg _ (div_nonneg b (by norm_num)), ?_⟩
    have := float64_mono ((r : ℚ) / 1000000000) 1 (by rw [div_le_one (by norm_num)]; linarith)
    rwa [float64_one] at this
  · intro h0
    have b : (r : ℚ) ≤ 0 := by exact_mod_cast h0
    constructor
    · have := float64_mono (-1) ((r : ℚ) / 1000000000)
        (by rw [le_div_iff₀ (by norm_num)]; linarith)
      rwa [float64_neg, float64_one] at this
    · have := float64_mono ((r : ℚ) / 1000000000) 0
        (div_nonpos_of_nonpos_of_nonneg b (by norm_num))
      rwa [float64_zero] at this

/-- The binary64 value of `Duration.Seconds` never increases when the duration
decreases. -/
theorem SecondsFloat64_mono (d2 d1 : Int) (h : d2 ≤ d1)
    (a1 : -(2 ^ 63) ≤ d2) (a2 : d1 < 2 ^ 63) :
    Duration.SecondsFloat64 d2 ≤ Duration.SecondsFloat64 d1 := by
  obtain ⟨s1, l1, u1, p1, n1⟩ := tdiv_tmod_facts d1
  obtain ⟨s2, l2, u2, p2, n2⟩ := tdiv_tmod_facts d2
  unfold Duration.SecondsFloat64 Second
  simp only
  generalize Int.tdiv d1 1000000000 = q1 at *
  generalize Int.tmod d1 1000000000 = r1 at *
  generalize Int.tdiv d2 1000000000 = q2 at *
  generalize Int.tmod d2 1000000000 = r2 at *
  have hq1 : |q1| < 2 ^ 53 := by rw [abs_lt]; omega
  have hq2 : |q2| < 2 ^ 53 := by rw [abs_lt]; omega
  have hr1 : |r1| < 2 ^ 53 := by rw [abs_lt]; omega
  have hr2 : |r2| < 2 ^ 53 := by rw [abs_lt]; omega
  rw [float64_int q1 hq1, float64_int q2 hq2, float64_int r1 hr1, float64_int r2 hr2]
  apply float64_mono
  obtain ⟨f1p, f1n⟩ := float64_unit_frac r1 l1 u1
  obtain ⟨f2p, f2n⟩ := float64_unit_frac r2 l2 u2
  rcases lt_or_eq_of_le (show q2 ≤ q1 by omega) with hlt | heq
  · have hq : (q2 : ℚ) + 1 ≤ (q1 : ℚ) := by exact_mod_cast hlt
    rcases le_or_lt 0 d2 with hd | hd
    · have := (f2p (p2 hd)).2
      have := (f1p (p1 (by omega))).1
      linarith
    · have := (f2n (n2 (by omega))).2
      have hlow : -1 ≤ float64 ((r1 : ℚ) / 1000000000) := by
        rcases le_or_lt 0 r1 with hr | hr
        · have := (f1p hr).1
          linarith
        · exact (f1n (by omega)).1
      linarith
  · have hr : r2 ≤ r1 := by omega
    have hrq : (r2 : ℚ) / 1000000000 ≤ (r1 : ℚ) / 1000000000 :=
      div_le_div_of_nonneg_right (by exact_mod_cast hr) (by norm_num)
    have := float64_mono _ _ hrq
    rw [heq]
    linarith

/-- A binary64 value within `2 ^ (-51)` of `x / k`, multiplied back by `k`,
stays within `2 ^ (-51)` of `x` exactly and within `2 ^ (-50)` after the product
is rounded to binary64. -/
theorem scale_back (d : Int) (x v k : ℚ) (hk : 1 ≤ k) (hx : x = (d : ℚ) / 1000000000)
    (hv : |v - x / k| ≤ |x / k| / 2 ^ (51 : ℕ)) :
    |v * k - x| ≤ |x| / 2 ^ (51 : ℕ) ∧ |float64 (v * k) - x| ≤ |x| / 2 ^ (50 : ℕ) := by
  have hk0 : 0 < k := lt_of_lt_of_le one_pos hk
  have e1 : v * k - x = (v - x / k) * k := by field_simp
  have hreal : |v * k - x| ≤ |x| / 2 ^ (51 : ℕ) := by
    rw [e1, abs_mul, abs_of_pos hk0]
    have := mul_le_mul_of_nonneg_right hv (le_of_lt hk0)
    have e2 : |x / k| / 2 ^ (51 : ℕ) * k = |x| / 2 ^ (51 : ℕ) := by
      rw [abs_div, abs_of_pos hk0]
      field_simp
      ring
    rwa [e2] at this
  refine ⟨hreal, ?_⟩
  rcases eq_or_ne d 0 with hd | hd
  · have hx0 : x = 0 := by rw [hx, hd]; simp
    rw [hx0] at hreal ⊢
    simp only [abs_zero, zero_div, sub_zero] at hreal ⊢
    have hvk : v * k = 0 := abs_eq_zero.mp (le_antisymm hreal (abs_nonneg _))
    rw [hvk, float64_zero]
    simp
  · have hdabs : (1 : ℚ) ≤ |(d : ℚ)| := by
      have : (1 : Int) ≤ |d| := Int.one_le_abs hd
      exact_mod_cast this
    have hxabs : (1 : ℚ) / 1000000000 ≤ |x| := by
      rw [hx, abs_div, abs_of_pos (by norm_num : (0 : ℚ) < 1000000000)]
      exact div_le_div_of_nonneg_right hdabs (by norm_num)
    obtain ⟨l, u⟩ := abs_le.mp hreal
    have hx51 : |x| / 2 ^ (51 : ℕ) ≤ |x| / 2 := by
      apply div_le_div_of_nonneg_left (abs_nonneg _) (by norm_num) (by norm_num)
    have htri : |x| ≤ |v * k| + |v * k - x| := by
      have := abs_sub_abs_le_abs_sub x (v * k)
      rw [abs_sub_comm x (v * k)] at this
      linarith
    have hvk_lo : |x| / 2 ≤ |v * k| := by linarith
    have htri2 : |v * k| ≤ |x| + |v * k - x| := by
      have := abs_sub_abs_le_abs_sub (v * k) x
      linarith
    have hvk_hi : |v * k| ≤ 2 * |x| := by
      have : |x| / 2 ≤ |x| := by linarith [abs_nonneg x]
      linarith
    have hbig : (1 : ℚ) / 2 ^ (54 : ℕ) ≤ |v * k| := by
      have : (1 : ℚ) / 2 ^ (54 : ℕ) ≤ (1 / 1000000000) / 2 := by norm_num
      linarith
    have herr := float64_err (v * k) (by
      have := tiny_le |v * k| hbig
      rwa [abs_abs] at this)
    have herr2 : |float64 (v * k) - v * k| ≤ |x| / 2 ^ (52 : ℕ) := by
      have : |v * k| / 2 ^ (53 : ℕ) ≤ 2 * |x| / 2 ^ (53 : ℕ) :=
        div_le_div_of_nonneg_right hvk_hi (by norm_num)
      have e : 2 * |x| / 2 ^ (53 : ℕ) = |x| / 2 ^ (52 : ℕ) := by
        norm_num
        ring
      linarith
    have hsum : |float64 (v * k) - x| ≤ |float64 (v * k) - v * k| + |v * k - x| := by
      have := abs_add (float64 (v * k) - v * k) (v * k - x)
      simpa using this
    have hfin : |x| / 2 ^ (52 : ℕ) + |x| / 2 ^ (51 : ℕ) ≤ |x| / 2 ^ (50 : ℕ) := by
      have e1 : |x| / 2 ^ (50 : ℕ) = 4 * (|x| / 2 ^ (52 : ℕ)) := by norm_num; ring
      have e2 : |x| / 2 ^ (51 : ℕ) = 2 * (|x| / 2 ^ (52 : ℕ)) := by norm_num; ring
      have h0 : 0 ≤ |x| / 2 ^ (52 : ℕ) := div_nonneg (abs_nonneg _) (by norm_num)
      rw [e1, e2]
      linarith
    linarith

theorem secondsFloat64_eq (h : Host) (c : Certificate) (now : Time) (hc : h.Certificate = some c)
    (hv : c.NotAfter.valid) (hn : now.valid) :
    h.SecondsUntilExpiredFloat64 now
      = .ret (Duration.SecondsFloat64 (clamp64 (c.NotAfter.nanosSince now))) := by
  simp only [Host.SecondsUntilExpiredFloat64, hc, Time.Sub_UTC _ _ hv hn]

theorem minutesFloat64_eq (h : Host) (c : Certificate) (now : Time) (hc : h.Certificate = some c)
    (hv : c.NotAfter.valid) (hn : now.valid) :
    h.MinutesUntilExpiredFloat64 now
      = .ret (Duration.MinutesFloat64 (clamp64 (c.NotAfter.nanosSince now))) := by
  simp only [Host.MinutesUntilExpiredFloat64, hc, Time.Sub_UTC _ _ hv hn]

theorem clamp64_range (x : Int) : -(2 ^ 63) ≤ clamp64 x ∧ clamp64 x < 2 ^ 63 := by
  unfold clamp64
  split_ifs <;> omega

/-! ## The claims -/

/-- Claim C1: for every domain list and every extra-CA argument that is nil, empty or
made of readable paths only, `NewCertMonitor` returns a nil error and a monitor
whose Hosts carry exactly the input domain names, position by position. -/
theorem C1_hosts_match_domains (env : Env) (hostDomains : List String)
    (extra : Option (List String))
    (hread : ∀ paths, extra = some paths → allReadable env paths) :
    ∃ cm, NewCertMonitor env hostDomains extra = .ret (cm, none) ∧
      cm.Hosts.map Host.DomainName = hostDomains ∧
      cm.Hosts.length = hostDomains.length := by
  have hmap : ∀ cfg, (appendHosts cfg hostDomains).map Host.DomainName = hostDomains := by
    intro cfg
    rw [appendHosts_eq_map, List.map_map]
    simp [Function.comp_def]
  rcases NewCertMonitor_cases env hostDomains extra with ⟨pool, h⟩ | ⟨err, h⟩
  · refine ⟨_, h, hmap _, ?_⟩
    have := congrArg List.length (hmap (getTLSConfig (some pool)))
    simpa using this
  · exfalso
    cases extra with
    | none => simp [NewCertMonitor, CertMonitor.zero, CertMonitor.getCertPool] at h
    | some paths =>
      obtain ⟨pool, hpool⟩ := getCertPool_some env
        { Hosts := [], AdditionalRootCAPaths := some paths, RootCAs := none }
      obtain ⟨pool', hp⟩ := appendFiles_ok env paths (hread paths rfl) _ pool hpool
      simp only [NewCertMonitor, CertMonitor.addAdditionalRootCertsFromFile] at h
      simp only [CertMonitor.getCertPool] at hp h
      rw [hp] at h
      simp at h

theorem C1_hosts_match_domains_witness :
    (∀ paths, some ["ca.pem", "ca.pem"] = some paths → allReadable demoEnv paths) ∧
    ∃ cm, NewCertMonitor demoEnv ["a.example", "a.example", "not a domain!"]
        (some ["ca.pem", "ca.pem"]) = .ret (cm, none) ∧
      cm.Hosts.map Host.DomainName = ["a.example", "a.example", "not a domain!"] ∧
      cm.Hosts.length = ["a.example", "a.example", "not a domain!"].length :=
  have hr : ∀ paths, some ["ca.pem", "ca.pem"] = some paths → allReadable demoEnv paths := by
    intro paths h
    cases h
    intro p hp
    refine ⟨[45, 45, 45], ?_⟩
    simp at hp
    subst hp
    simp [demoEnv]
  ⟨hr, C1_hosts_match_domains demoEnv _ _ hr⟩

/-- Claim C2: when the extra-CA path list holds an unreadable path, `NewCertMonitor`
returns the zero monitor together with an error whose message is built from the
first unreadable path and the underlying read error, and contains both. -/
theorem C2_unreadable_path_fails (env : Env) (hostDomains : List String) (paths : List String)
    (hbad : ∃ p ∈ paths, ∃ e, env.ReadFile p = .error e) :
    ∃ pre p post e, paths = pre ++ p :: post ∧ allReadable env pre ∧
      env.ReadFile p = .error e ∧
      NewCertMonitor env hostDomains (some paths) =
        .ret ({ Hosts := [], AdditionalRootCAPaths := none, RootCAs := none },
          some ("Error reading additional cert file " ++ p ++ ":   error: " ++ e)) ∧
      p.data <:+: ("Error reading additional cert file " ++ p ++ ":   error: " ++ e).data ∧
      e.data <:+: ("Error reading additional cert file " ++ p ++ ":   error: " ++ e).data := by
  obtain ⟨pre, p, post, e, hsplit, hpre, he⟩ := first_unreadable env paths hbad
  refine ⟨pre, p, post, e, hsplit, hpre, he, ?_, ?_, ?_⟩
  · obtain ⟨pool, hpool⟩ := getCertPool_some env
      { Hosts := [], AdditionalRootCAPaths := some paths, RootCAs := none }
    obtain ⟨cm', hc⟩ := appendFiles_err env pre p post e hpre he _ pool hpool
    simp only [NewCertMonitor, CertMonitor.addAdditionalRootCertsFromFile]
    simp only [CertMonitor.getCertPool] at hc ⊢
    rw [← hsplit] at hc
    rw [hc]
    rfl
  · refine ⟨("Error reading additional cert file ").data, (":   error: " ++ e).data, ?_⟩
    simp [String.data_append, List.append_assoc]
  · refine ⟨("Error reading additional cert file " ++ p ++ ":   error: ").data, [], ?_⟩
    simp [String.data_append, List.append_assoc]

theorem C2_unreadable_path_fails_witness :
    (∃ p ∈ ["ca.pem", "missing.pem", "gone.pem"], ∃ e, demoEnv.ReadFile p = .error e) ∧
    ∃ pre p post e, ["ca.pem", "missing.pem", "gone.pem"] = pre ++ p :: post ∧
      allReadable demoEnv pre ∧ demoEnv.ReadFile p = .error e ∧
      NewCertMonitor demoEnv ["a.example"] (some ["ca.pem", "missing.pem", "gone.pem"]) =
        .ret ({ Hosts := [], AdditionalRootCAPaths := none, RootCAs := none },
          some ("Error reading additional cert file " ++ p ++ ":   error: " ++ e)) ∧
      p.data <:+: ("Error reading additional cert file " ++ p ++ ":   error: " ++ e).data ∧
      e.data <:+: ("Error reading additional cert file " ++ p ++ ":   error: " ++ e).data :=
  have hb : ∃ p ∈ ["ca.pem", "missing.pem", "gone.pem"], ∃ e, demoEnv.ReadFile p = .error e :=
    ⟨"missing.pem", by simp, "open missing.pem: no such file or directory", by simp [demoEnv]⟩
  ⟨hb, C2_unreadable_path_fails demoEnv ["a.example"] _ hb⟩

/-- Claim C3: when the dial succeeds and the peer certificate list is empty,
`GetCertificate` returns the error "No certs returned" and the Host is exactly
what it was before the call. -/
theorem C3_no_certs_keeps_host (net : Net) (now : Time) (h : Host) (state : ConnectionState)
    (hdial : net.Dial "tcp" (h.DomainName ++ ":" ++ "443") h.tlsConfig = .ok state)
    (hempty : state.PeerCertificates = []) :
    h.GetCertificate net now = .ret (h, some "No certs returned") := by
  simp only [Host.GetCertificate, hdial, hempty]

theorem C3_no_certs_keeps_host_witness :
    demoNet.Dial "tcp" ("empty.example" ++ ":" ++ "443") none = .ok { PeerCertificates := [] } ∧
    ({ PeerCertificates := [] } : ConnectionState).PeerCertificates = [] ∧
    ({ Certificate := some demoCert, DomainName := "empty.example", tlsConfig := none } : Host).GetCertificate
        demoNet demoNow =
      .ret ({ Certificate := some demoCert, DomainName := "empty.example", tlsConfig := none },
        some "No certs returned") :=
  have hd : demoNet.Dial "tcp" ("empty.example" ++ ":" ++ "443") none
      = .ok { PeerCertificates := [] } := by
    simp [demoNet]
  ⟨hd, rfl, C3_no_certs_keeps_host demoNet demoNow
    { Certificate := some demoCert, DomainName := "empty.example", tlsConfig := none }
    { PeerCertificates := [] } hd rfl⟩

/-- Claim C4: when the dial succeeds and the peer certificate list is non-empty,
`GetCertificate` returns nil and the Host holds the first certificate of the
list in place of whatever it held, domain name and policy unchanged; a second
fetch against the same network leaves the same Host. -/
theorem C4_adopts_first_cert (net : Net) (now now2 : Time) (h : Host) (state : ConnectionState)
    (cert : Certificate) (rest : List Certificate)
    (hdial : net.Dial "tcp" (h.DomainName ++ ":" ++ "443") h.tlsConfig = .ok state)
    (hpeer : state.PeerCertificates = cert :: rest) :
    ∃ h1, h.GetCertificate net now = .ret (h1, none) ∧
      h1.Certificate = some cert ∧ h1.DomainName = h.DomainName ∧ h1.tlsConfig = h.tlsConfig ∧
      h1.GetCertificate net now2 = .ret (h1, none) := by
  have step : ∀ (g : Host) (t : Time), g.DomainName = h.DomainName → g.tlsConfig = h.tlsConfig →
      g.GetCertificate net t = .ret ({ g with Certificate := some cert }, none) := by
    intro g t hn hc
    simp only [Host.GetCertificate, hn, hc, hdial, hpeer, Host.SecondsUntilExpired]
  refine ⟨{ h with Certificate := some cert }, step h now rfl rfl, rfl, rfl, rfl, ?_⟩
  exact step { h with Certificate := some cert } now2 rfl rfl

theorem C4_adopts_first_cert_witness :
    demoNet.Dial "tcp" ("example.com" ++ ":" ++ "443") none
      = .ok { PeerCertificates := [demoCert, Certificate.zero] } ∧
    ({ PeerCertificates := [demoCert, Certificate.zero] } : ConnectionState).PeerCertificates
      = demoCert :: [Certificate.zero] ∧
    ∃ h1, ({ Certificate := none, DomainName := "example.com", tlsConfig := none } : Host).GetCertificate
        demoNet demoNow = .ret (h1, none) ∧
      h1.Certificate = some demoCert ∧ h1.DomainName = "example.com" ∧ h1.tlsConfig = none ∧
      h1.GetCertificate demoNet Time.zero = .ret (h1, none) :=
  have hd : demoNet.Dial "tcp" ("example.com" ++ ":" ++ "443") none
      = .ok { PeerCertificates := [demoCert, Certificate.zero] } := by
    simp [demoNet]
  ⟨hd, rfl, C4_adopts_first_cert demoNet demoNow Time.zero
    { Certificate := none, DomainName := "example.com", tlsConfig := none }
    { PeerCertificates := [demoCert, Certificate.zero] } demoCert [Certificate.zero] hd rfl⟩

/-- Claim C5: the three accessors return the duration `NotAfter.UTC().Sub(now.UTC())`
in seconds, minutes and hours, and that duration is the wall-clock difference
NotAfter minus now, saturated to the `int64` nanosecond range as `Sub` does. -/
theorem C5_accessors_report_interval (h : Host) (c : Certificate) (now : Time)
    (hc : h.Certificate = some c) (hv : c.NotAfter.valid) (hn : now.valid) :
    h.SecondsUntilExpired now = .ret (((c.NotAfter.UTC.Sub now.UTC : Int) : ℚ) / 1000000000) ∧
    h.MinutesUntilExpired now = .ret (((c.NotAfter.UTC.Sub now.UTC : Int) : ℚ) / 60000000000) ∧
    h.HoursUntilExpired now = .ret (((c.NotAfter.UTC.Sub now.UTC : Int) : ℚ) / 3600000000000) ∧
    c.NotAfter.UTC.Sub now.UTC = clamp64 (c.NotAfter.nanosSince now) ∧
    (-(2 ^ 63) ≤ c.NotAfter.nanosSince now → c.NotAfter.nanosSince now ≤ 2 ^ 63 - 1 →
      c.NotAfter.UTC.Sub now.UTC = c.NotAfter.nanosSince now) := by
  have hs := Time.Sub_UTC c.NotAfter now hv hn
  refine ⟨?_, ?_, ?_, hs, ?_⟩
  · rw [hs]; exact seconds_eq h c now hc hv hn
  · rw [hs]; exact minutes_eq h c now hc hv hn
  · rw [hs]; exact hours_eq h c now hc hv hn
  · intro h1 h2
    rw [hs]
    unfold clamp64
    split_ifs <;> first | rfl | omega

theorem C5_accessors_report_interval_witness :
    unfetchedHost.Certificate = some Certificate.zero ∧ Certificate.zero.NotAfter.valid ∧
    demoNow.valid ∧
    unfetchedHost.SecondsUntilExpired demoNow =
      .ret (((Certificate.zero.NotAfter.UTC.Sub demoNow.UTC : Int) : ℚ) / 1000000000) ∧
    unfetchedHost.MinutesUntilExpired demoNow =
      .ret (((Certificate.zero.NotAfter.UTC.Sub demoNow.UTC : Int) : ℚ) / 60000000000) ∧
    unfetchedHost.HoursUntilExpired demoNow =
      .ret (((Certificate.zero.NotAfter.UTC.Sub demoNow.UTC : Int) : ℚ) / 3600000000000) ∧
    Certificate.zero.NotAfter.UTC.Sub demoNow.UTC
      = clamp64 (Certificate.zero.NotAfter.nanosSince demoNow) ∧
    (-(2 ^ 63) ≤ Certificate.zero.NotAfter.nanosSince demoNow →
      Certificate.zero.NotAfter.nanosSince demoNow ≤ 2 ^ 63 - 1 →
      Certificate.zero.NotAfter.UTC.Sub demoNow.UTC
        = Certificate.zero.NotAfter.nanosSince demoNow) :=
  ⟨rfl, zero_valid, demoNow_valid,
    C5_accessors_report_interval unfetchedHost Certificate.zero demoNow rfl zero_valid
      demoNow_valid⟩

/-- Claim C6 (as stated) fails: for the placeholder certificate and two clock readings
one nanosecond apart in 2023, `SecondsUntilExpired` returns the same value
(`minDuration` in seconds) at both, so it does not strictly decrease; the
binary64 values are equal as well. -/
theorem C6_not_strictly_decreasing :
    unfetchedHost.Certificate = some Certificate.zero ∧
    demoNow.valid ∧ demoLater.valid ∧ demoNow.earlier demoLater ∧
    unfetchedHost.SecondsUntilExpired demoNow = .ret (-9223372036854775808 / 1000000000) ∧
    unfetchedHost.SecondsUntilExpired demoLater = .ret (-9223372036854775808 / 1000000000) ∧
    ¬ ((-9223372036854775808 / 1000000000 : ℚ) < -9223372036854775808 / 1000000000) ∧
    unfetchedHost.SecondsUntilExpiredFloat64 demoLater
      = unfetchedHost.SecondsUntilExpiredFloat64 demoNow := by
  have c1 : clamp64 (Certificate.zero.NotAfter.nanosSince demoNow) = -9223372036854775808 := by
    decide
  have c2 : clamp64 (Certificate.zero.NotAfter.nanosSince demoLater) = -9223372036854775808 := by
    decide
  refine ⟨rfl, demoNow_valid, demoLater_valid, by decide, ?_, ?_, lt_irrefl _, ?_⟩
  · rw [seconds_eq unfetchedHost Certificate.zero demoNow rfl zero_valid demoNow_valid, c1]
    norm_num
  · rw [seconds_eq unfetchedHost Certificate.zero demoLater rfl zero_valid demoLater_valid, c2]
    norm_num
  · rw [secondsFloat64_eq unfetchedHost Certificate.zero demoLater rfl zero_valid demoLater_valid,
      secondsFloat64_eq unfetchedHost Certificate.zero demoNow rfl zero_valid demoNow_valid,
      c1, c2]

/-- Claim C6 (amended): for a fixed stored certificate and clock readings t1 before
t2, `SecondsUntilExpired` at t2 is never greater than at t1, both as the exact
value of the duration in seconds and as the binary64 value Go returns. -/
theorem C6_never_increases (h : Host) (c : Certificate) (t1 t2 : Time)
    (hc : h.Certificate = some c) (hv : c.NotAfter.valid) (h1 : t1.valid) (h2 : t2.valid)
    (hlt : t1.earlier t2) :
    ∃ s1 s2 f1 f2, h.SecondsUntilExpired t1 = .ret s1 ∧ h.SecondsUntilExpired t2 = .ret s2 ∧
      s2 ≤ s1 ∧
      h.SecondsUntilExpiredFloat64 t1 = .ret f1 ∧ h.SecondsUntilExpiredFloat64 t2 = .ret f2 ∧
      f2 ≤ f1 := by
  have hd : c.NotAfter.nanosSince t2 < c.NotAfter.nanosSince t1 := by
    obtain ⟨-, -, a3, a4, -⟩ := h1
    obtain ⟨-, -, b3, b4, -⟩ := h2
    unfold Time.earlier at hlt
    unfold Time.nanosSince
    omega
  have hcl := clamp64_mono _ _ (le_of_lt hd)
  refine ⟨_, _, _, _, seconds_eq h c t1 hc hv h1, seconds_eq h c t2 hc hv h2, ?_,
    secondsFloat64_eq h c t1 hc hv h1, secondsFloat64_eq h c t2 hc hv h2, ?_⟩
  · have hq : ((clamp64 (c.NotAfter.nanosSince t2) : Int) : ℚ)
        ≤ ((clamp64 (c.NotAfter.nanosSince t1) : Int) : ℚ) := by exact_mod_cast hcl
    exact div_le_div_of_nonneg_right hq (by norm_num)
  · exact SecondsFloat64_mono _ _ hcl (clamp64_range _).1 (clamp64_range _).2

theorem C6_never_increases_witness :
    fetchedHost.Certificate = some demoCert ∧ demoCert.NotAfter.valid ∧ demoNow.valid ∧
    demoLater.valid ∧ demoNow.earlier demoLater ∧
    ∃ s1 s2 f1 f2, fetchedHost.SecondsUntilExpired demoNow = .ret s1 ∧
      fetchedHost.SecondsUntilExpired demoLater = .ret s2 ∧ s2 ≤ s1 ∧
      fetchedHost.SecondsUntilExpiredFloat64 demoNow = .ret f1 ∧
      fetchedHost.SecondsUntilExpiredFloat64 demoLater = .ret f2 ∧ f2 ≤ f1 :=
  ⟨rfl, by decide, demoNow_valid, demoLater_valid, by decide,
    C6_never_increases fetchedHost demoCert demoNow demoLater rfl (by decide) demoNow_valid
      demoLater_valid (by decide)⟩

/-- Claim C7 (as stated) fails on the values the code returns: for a certificate
that expires exactly one hundred seconds after the clock reading, the binary64
results are 100 seconds and 3752999689475413 / 2251799813685248 minutes, and
that number of minutes times 60 is not 100, neither as an exact product nor
as the binary64 product (7036874417766399 / 70368744177664, printed
99.99999999999999). -/
theorem C7_not_exact_in_float64 :
    fetchedHost.Certificate = some demoCert ∧
    fetchedHost.SecondsUntilExpiredFloat64 demoWhole = .ret 100 ∧
    fetchedHost.MinutesUntilExpiredFloat64 demoWhole
      = .ret (3752999689475413 / 2251799813685248) ∧
    ¬ ((3752999689475413 / 2251799813685248 : ℚ) * 60 = 100) ∧
    ¬ (float64 (3752999689475413 / 2251799813685248 * 60) = 100) := by
  have hw : demoWhole.valid := by decide
  have hc : demoCert.NotAfter.valid := by decide
  have c1 : clamp64 (demoCert.NotAfter.nanosSince demoWhole) = 100000000000 := by decide
  refine ⟨rfl, ?_, ?_, by norm_num, by rw [float64_minutes_product]; norm_num⟩
  · rw [secondsFloat64_eq fetchedHost demoCert demoWhole rfl hc hw, c1, SecondsFloat64_hundred]
  · rw [minutesFloat64_eq fetchedHost demoCert demoWhole rfl hc hw, c1, MinutesFloat64_hundred]

/-- Claim C7 (amended): with one clock reading for the three calls, minutes times 60
and hours times 3600 equal the seconds over the exact value of the duration; the
binary64 values Go returns agree within a relative tolerance: with x the
duration in seconds, the returned seconds are within `|x| / 2 ^ 51` of x, the
products of the returned minutes by 60 and of the returned hours by 3600 are
within `|x| / 2 ^ 50` of the returned seconds, and within `|x| / 2 ^ 49` when
the product is itself computed in binary64. -/
theorem C7_units_agree_within_tolerance (h : Host) (c : Certificate) (now : Time)
    (hc : h.Certificate = some c) :
    (∃ s m hr, h.SecondsUntilExpired now = .ret s ∧ h.MinutesUntilExpired now = .ret m ∧
      h.HoursUntilExpired now = .ret hr ∧ m * 60 = s ∧ hr * 3600 = s) ∧
    (∃ s m hr, h.SecondsUntilExpiredFloat64 now = .ret s ∧
      h.MinutesUntilExpiredFloat64 now = .ret m ∧ h.HoursUntilExpiredFloat64 now = .ret hr ∧
      |s - ((c.NotAfter.UTC.Sub now.UTC : Int) : ℚ) / 1000000000|
        ≤ |((c.NotAfter.UTC.Sub now.UTC : Int) : ℚ) / 1000000000| / 2 ^ (51 : ℕ) ∧
      |m * 60 - s| ≤ |((c.NotAfter.UTC.Sub now.UTC : Int) : ℚ) / 1000000000| / 2 ^ (50 : ℕ) ∧
      |hr * 3600 - s| ≤ |((c.NotAfter.UTC.Sub now.UTC : Int) : ℚ) / 1000000000| / 2 ^ (50 : ℕ) ∧
      |float64 (m * 60) - s|
        ≤ |((c.NotAfter.UTC.Sub now.UTC : Int) : ℚ) / 1000000000| / 2 ^ (49 : ℕ) ∧
      |float64 (hr * 3600) - s|
        ≤ |((c.NotAfter.UTC.Sub now.UTC : Int) : ℚ) / 1000000000| / 2 ^ (49 : ℕ)) := by
  constructor
  · refine ⟨Duration.Seconds (c.NotAfter.UTC.Sub now.UTC),
      Duration.Minutes (c.NotAfter.UTC.Sub now.UTC),
      Duration.Hours (c.NotAfter.UTC.Sub now.UTC), ?_, ?_, ?_, ?_, ?_⟩
    · simp only [Host.SecondsUntilExpired, hc]
    · simp only [Host.MinutesUntilExpired, hc]
    · simp only [Host.HoursUntilExpired, hc]
    · rw [Duration.Minutes_eq, Duration.Seconds_eq]
      ring
    · rw [Duration.Hours_eq, Duration.Seconds_eq]
      ring
  · obtain ⟨r1, r2⟩ := Time.Sub_range c.NotAfter.UTC now.UTC
    have a1 : h.SecondsUntilExpiredFloat64 now
        = .ret (Duration.SecondsFloat64 (c.NotAfter.UTC.Sub now.UTC)) := by
      simp only [Host.SecondsUntilExpiredFloat64, hc]
    have a2 : h.MinutesUntilExpiredFloat64 now
        = .ret (Duration.MinutesFloat64 (c.NotAfter.UTC.Sub now.UTC)) := by
      simp only [Host.MinutesUntilExpiredFloat64, hc]
    have a3 : h.HoursUntilExpiredFloat64 now
        = .ret (Duration.HoursFloat64 (c.NotAfter.UTC.Sub now.UTC)) := by
      simp only [Host.HoursUntilExpiredFloat64, hc]
    generalize c.NotAfter.UTC.Sub now.UTC = d at r1 r2 a1 a2 a3 ⊢
    have es : |Duration.SecondsFloat64 d - (d : ℚ) / 1000000000|
        ≤ |(d : ℚ) / 1000000000| / 2 ^ (51 : ℕ) := by
      have := unitFloat64_err d 1000000000 r1 r2 (by norm_num) (by norm_num)
      simpa [Duration.SecondsFloat64, Second] using this
    have em : |Duration.MinutesFloat64 d - ((d : ℚ) / 1000000000) / 60|
        ≤ |((d : ℚ) / 1000000000) / 60| / 2 ^ (51 : ℕ) := by
      have := unitFloat64_err d 60000000000 r1 r2 (by norm_num) (by norm_num)
      have e : ((d : ℚ) / 1000000000) / 60 = (d : ℚ) / ((60000000000 : Int) : ℚ) := by
        push_cast
        rw [div_div]
        norm_num
      rw [e]
      simpa [Duration.MinutesFloat64, Minute, Second] using this
    have eh : |Duration.HoursFloat64 d - ((d : ℚ) / 1000000000) / 3600|
        ≤ |((d : ℚ) / 1000000000) / 3600| / 2 ^ (51 : ℕ) := by
      have := unitFloat64_err d 3600000000000 r1 r2 (by norm_num) (by norm_num)
      have e : ((d : ℚ) / 1000000000) / 3600 = (d : ℚ) / ((3600000000000 : Int) : ℚ) := by
        push_cast
        rw [div_div]
        norm_num
      rw [e]
      simpa [Duration.HoursFloat64, Hour, Minute, Second] using this
    obtain ⟨m1, m2⟩ := scale_back d _ _ 60 (by norm_num) rfl em
    obtain ⟨h1, h2⟩ := scale_back d _ _ 3600 (by norm_num) rfl eh
    obtain ⟨s1, s2⟩ := abs_le.mp es
    obtain ⟨m1a, m1b⟩ := abs_le.mp m1
    obtain ⟨m2a, m2b⟩ := abs_le.mp m2
    obtain ⟨h1a, h1b⟩ := abs_le.mp h1
    obtain ⟨h2a, h2b⟩ := abs_le.mp h2
    have x0 : 0 ≤ |(d : ℚ) / 1000000000| / 2 ^ (51 : ℕ) := div_nonneg (abs_nonneg _) (by norm_num)
    have e50 : |(d : ℚ) / 1000000000| / 2 ^ (50 : ℕ)
        = 2 * (|(d : ℚ) / 1000000000| / 2 ^ (51 : ℕ)) := by
      norm_num
      ring
    have e49 : |(d : ℚ) / 1000000000| / 2 ^ (49 : ℕ)
        = 4 * (|(d : ℚ) / 1000000000| / 2 ^ (51 : ℕ)) := by
      norm_num
      ring
    refine ⟨Duration.SecondsFloat64 d, Duration.MinutesFloat64 d, Duration.HoursFloat64 d,
      a1, a2, a3, es, ?_, ?_, ?_, ?_⟩
    · rw [abs_le]
      constructor <;> linarith
    · rw [abs_le]
      constructor <;> linarith
    · rw [abs_le]
      constructor <;> linarith
    · rw [abs_le]
      constructor <;> linarith

theorem C7_units_agree_within_tolerance_witness :
    fetchedHost.Certificate = some demoCert ∧
    (∃ s m hr, fetchedHost.SecondsUntilExpired demoWhole = .ret s ∧
      fetchedHost.MinutesUntilExpired demoWhole = .ret m ∧
      fetchedHost.HoursUntilExpired demoWhole = .ret hr ∧ m * 60 = s ∧ hr * 3600 = s) ∧
    (∃ s m hr, fetchedHost.SecondsUntilExpiredFloat64 demoWhole = .ret s ∧
      fetchedHost.MinutesUntilExpiredFloat64 demoWhole = .ret m ∧
      fetchedHost.HoursUntilExpiredFloat64 demoWhole = .ret hr ∧
      |s - ((demoCert.NotAfter.UTC.Sub demoWhole.UTC : Int) : ℚ) / 1000000000|
        ≤ |((demoCert.NotAfter.UTC.Sub demoWhole.UTC : Int) : ℚ) / 1000000000| / 2 ^ (51 : ℕ) ∧
      |m * 60 - s|
        ≤ |((demoCert.NotAfter.UTC.Sub demoWhole.UTC : Int) : ℚ) / 1000000000| / 2 ^ (50 : ℕ) ∧
      |hr * 3600 - s|
        ≤ |((demoCert.NotAfter.UTC.Sub demoWhole.UTC : Int) : ℚ) / 1000000000| / 2 ^ (50 : ℕ) ∧
      |float64 (m * 60) - s|
        ≤ |((demoCert.NotAfter.UTC.Sub demoWhole.UTC : Int) : ℚ) / 1000000000| / 2 ^ (49 : ℕ) ∧
      |float64 (hr * 3600) - s|
        ≤ |((demoCert.NotAfter.UTC.Sub demoWhole.UTC : Int) : ℚ) / 1000000000| / 2 ^ (49 : ℕ)) :=
  ⟨rfl, C7_units_agree_within_tolerance fetchedHost demoCert demoWhole rfl⟩

/-- Claim C8: a Host built by `NewCertMonitor` and never fetched reports a strictly
negative expiry in seconds, minutes and hours at every clock reading after the
zero time, and from the Unix epoch on the reported value is `minDuration`
(-2^63 nanoseconds) in the respective unit. -/
theorem C8_unfetched_is_expired (env : Env) (ds : List String) (extra : Option (List String))
    (cm : CertMonitor) (err : Option String) (h : Host) (now : Time)
    (hnew : NewCertMonitor env ds extra = .ret (cm, err)) (hmem : h ∈ cm.Hosts)
    (hn : now.valid) (hlater : Time.zero.earlier now) :
    ∃ s m hr, h.SecondsUntilExpired now = .ret s ∧ h.MinutesUntilExpired now = .ret m ∧
      h.HoursUntilExpired now = .ret hr ∧ s < 0 ∧ m < 0 ∧ hr < 0 ∧
      (unixToInternal ≤ now.sec →
        s = -9223372036854775808 / 1000000000 ∧ m = -9223372036854775808 / 60000000000 ∧
        hr = -9223372036854775808 / 3600000000000) := by
  obtain ⟨hc, -⟩ := host_of_new env ds extra cm err hnew h hmem
  obtain ⟨hneg, hmin⟩ := clamp64_placeholder now hn hlater
  have hq : ((clamp64 (Time.zero.nanosSince now) : Int) : ℚ) < 0 := by exact_mod_cast hneg
  refine ⟨_, _, _, seconds_eq h Certificate.zero now hc zero_valid hn,
    minutes_eq h Certificate.zero now hc zero_valid hn,
    hours_eq h Certificate.zero now hc zero_valid hn, ?_, ?_, ?_, ?_⟩
  · exact div_neg_of_neg_of_pos hq (by norm_num)
  · exact div_neg_of_neg_of_pos hq (by norm_num)
  · exact div_neg_of_neg_of_pos hq (by norm_num)
  · intro hu
    have he : clamp64 (Certificate.zero.NotAfter.nanosSince now) = -9223372036854775808 :=
      hmin hu
    rw [he]
    norm_num

theorem C8_unfetched_is_expired_witness :
    NewCertMonitor demoEnv ["example.com"] none = .ret (demoMonitor, none) ∧
    unfetchedHost ∈ demoMonitor.Hosts ∧ demoNow.valid ∧ Time.zero.earlier demoNow ∧
    ∃ s m hr, unfetchedHost.SecondsUntilExpired demoNow = .ret s ∧
      unfetchedHost.MinutesUntilExpired demoNow = .ret m ∧
      unfetchedHost.HoursUntilExpired demoNow = .ret hr ∧ s < 0 ∧ m < 0 ∧ hr < 0 ∧
      (unixToInternal ≤ demoNow.sec →
        s = -9223372036854775808 / 1000000000 ∧ m = -9223372036854775808 / 60000000000 ∧
        hr = -9223372036854775808 / 3600000000000) :=
  have hm : unfetchedHost ∈ demoMonitor.Hosts := by
    simp [demoMonitor, unfetchedHost, getTLSConfig]
  ⟨demoMonitor_built, hm, demoNow_valid, by decide,
    C8_unfetched_is_expired demoEnv ["example.com"] none demoMonitor none unfetchedHost demoNow
      demoMonitor_built hm demoNow_valid (by decide)⟩

/-- Claim C9: after any sequence of `GetCertificate` calls that return to the caller,
a Host built by `NewCertMonitor` holds a certificate, so the three expiry
accessors return a value at every clock reading. -/
theorem C9_certificate_never_nil (env : Env) (ds : List String) (extra : Option (List String))
    (cm : CertMonitor) (err : Option String) (h h1 : Host) (steps : List (Net × Time))
    (hnew : NewCertMonitor env ds extra = .ret (cm, err)) (hmem : h ∈ cm.Hosts)
    (hf : h.fetches steps = .ret h1) :
    h1.Certificate ≠ none ∧
    ∀ now, ∃ s m hr, h1.SecondsUntilExpired now = .ret s ∧ h1.MinutesUntilExpired now = .ret m ∧
      h1.HoursUntilExpired now = .ret hr := by
  obtain ⟨hc, -⟩ := host_of_new env ds extra cm err hnew h hmem
  have hs : h1.Certificate ≠ none := fetches_keeps_cert steps h h1 hf (by rw [hc]; simp)
  refine ⟨hs, ?_⟩
  intro now
  cases hc1 : h1.Certificate with
  | none => exact absurd hc1 hs
  | some c =>
    refine ⟨Duration.Seconds (c.NotAfter.UTC.Sub now.UTC),
      Duration.Minutes (c.NotAfter.UTC.Sub now.UTC),
      Duration.Hours (c.NotAfter.UTC.Sub now.UTC), ?_, ?_, ?_⟩
    · simp only [Host.SecondsUntilExpired, hc1]
    · simp only [Host.MinutesUntilExpired, hc1]
    · simp only [Host.HoursUntilExpired, hc1]

theorem C9_certificate_never_nil_witness :
    NewCertMonitor demoEnv ["example.com"] none = .ret (demoMonitor, none) ∧
    unfetchedHost ∈ demoMonitor.Hosts ∧
    unfetchedHost.fetches [(demoNet, demoNow), (demoNet, demoLater)] = .ret fetchedHost ∧
    fetchedHost.Certificate ≠ none ∧
    ∀ now, ∃ s m hr, fetchedHost.SecondsUntilExpired now = .ret s ∧
      fetchedHost.MinutesUntilExpired now = .ret m ∧ fetchedHost.HoursUntilExpired now = .ret hr :=
  have hm : unfetchedHost ∈ demoMonitor.Hosts := by
    simp [demoMonitor, unfetchedHost, getTLSConfig]
  ⟨demoMonitor_built, hm, demo_fetches,
    C9_certificate_never_nil demoEnv ["example.com"] none demoMonitor none unfetchedHost
      fetchedHost [(demoNet, demoNow), (demoNet, demoLater)] demoMonitor_built hm demo_fetches⟩

/-- Claim C10: a monitor returned without error has a non-nil trust store and every
Host carries the same policy `getTLSConfig cm.RootCAs`; for every pool
`getTLSConfig` returns a policy with verification disabled whose trust store
is that pool. -/
theorem C10_shared_policy (env : Env) (ds : List String) (extra : Option (List String))
    (cm : CertMonitor) (hnew : NewCertMonitor env ds extra = .ret (cm, none)) :
    (∃ pool, cm.RootCAs = some pool) ∧
    (∀ h ∈ cm.Hosts, h.tlsConfig = getTLSConfig cm.RootCAs) ∧
    (∀ ca, ∃ cfg, getTLSConfig ca = some cfg ∧ cfg.InsecureSkipVerify = true ∧ cfg.RootCAs = ca) := by
  refine ⟨?_, ?_, ?_⟩
  · rcases NewCertMonitor_ok env ds extra cm none hnew with ⟨-, pool, hp, -⟩ | ⟨hne, -⟩
    · exact ⟨pool, hp⟩
    · exact absurd rfl hne
  · intro h hmem
    exact (host_of_new env ds extra cm none hnew h hmem).2
  · intro ca
    exact ⟨{ InsecureSkipVerify := true, RootCAs := ca }, rfl, rfl, rfl⟩

theorem C10_shared_policy_witness :
    NewCertMonitor demoEnv ["example.com"] none = .ret (demoMonitor, none) ∧
    (∃ pool, demoMonitor.RootCAs = some pool) ∧
    (∀ h ∈ demoMonitor.Hosts, h.tlsConfig = getTLSConfig demoMonitor.RootCAs) ∧
    (∀ ca, ∃ cfg, getTLSConfig ca = some cfg ∧ cfg.InsecureSkipVerify = true ∧ cfg.RootCAs = ca) :=
  ⟨demoMonitor_built,
    C10_shared_policy demoEnv ["example.com"] none demoMonitor demoMonitor_built⟩

end Certmon
